import Mathlib

/-!
Shallow embedding of the PromptCleaner substitution/restoration engine
(`prompt_cleaner/utils.py`) and proofs of its specified properties.

Text is modelled as `List Char`.  Python dicts holding the
identifier-to-placeholder mapping are modelled as insertion-ordered
association lists (`List (List Char × List Char)`), with `lookupA` the
find-first lookup, `setKey` the dict item assignment (overwrite in place,
else append), matching Python's insertion-ordered dict semantics.

The regex-driven scans of `re.sub` are embedded as fuel-indexed structural
recursions over the character list: the fuel is initialised to the text
length, which is always sufficient because every step consumes at least one
character.  Structural recursion keeps every definition kernel-reducible so
that concrete instances evaluate by `decide` / `rfl`.
-/

namespace PromptCleaner

abbrev Mapping := List (List Char × List Char)

/-- Character class of the regex `[0-9a-fA-F]`. -/
def isHexChar (c : Char) : Bool :=
  ('0' ≤ c && c ≤ '9') || ('a' ≤ c && c ≤ 'f') || ('A' ≤ c && c ≤ 'F')

/-- Character class of the regex `\d` (restricted to ASCII decimal digits). -/
def isDecChar (c : Char) : Bool :=
  '0' ≤ c && c ≤ '9'

/-- The decimal digit characters, as produced by Python's `str(int)`. -/
def digitChar : Nat → Char
  | 0 => '0' | 1 => '1' | 2 => '2' | 3 => '3' | 4 => '4'
  | 5 => '5' | 6 => '6' | 7 => '7' | 8 => '8' | _ => '9'

/-- Numeric value of a decimal digit character. -/
def charVal (c : Char) : Nat := c.toNat - 48

/-- Decimal digits of `n`, most significant first, with fuel for structural
recursion (`natDigitsF fuel n` is correct whenever `n ≤ fuel`). -/
def natDigitsF : Nat → Nat → List Char
  | 0, n => [digitChar n]
  | fuel + 1, n =>
    if n < 10 then [digitChar n]
    else natDigitsF fuel (n / 10) ++ [digitChar (n % 10)]

/-- Python `str(n)` for a non-negative integer `n`. -/
def natDigits (n : Nat) : List Char := natDigitsF n n

/-- Python `s.zfill(w)`: left-pad with `'0'` up to width `w` (no-op when the
string is already at least `w` characters long, in particular when `w = 0`,
which is how Python treats every non-positive width). -/
def zfill (s : List Char) (w : Nat) : List Char :=
  List.replicate (w - s.length) '0' ++ s

/-- Numeric value of a string of decimal digits (leading zeros allowed). -/
def decVal (cs : List Char) : Nat :=
  cs.foldl (fun a c => 10 * a + charVal c) 0

/-- Match exactly `n` characters satisfying `p` at the head of the input,
returning them together with the untouched remainder. -/
def takeCount (p : Char → Bool) : Nat → List Char → Option (List Char × List Char)
  | 0, cs => some ([], cs)
  | _ + 1, [] => none
  | n + 1, c :: cs =>
    if p c then
      match takeCount p n cs with
      | some (d, r) => some (c :: d, r)
      | none => none
    else none

/-- Match one literal character at the head of the input. -/
def expectChar (c : Char) : List Char → Option (List Char)
  | [] => none
  | x :: r => if x = c then some r else none

/-- Match the regex `[0-9a-fA-F]{8}-[0-9a-fA-F]{4}-[0-9a-fA-F]{4}-`
`[0-9a-fA-F]{4}-[0-9a-fA-F]{12}` at the head of the input, returning the
matched 36 characters and the remainder. -/
def matchUUID (cs : List Char) : Option (List Char × List Char) :=
  (takeCount isHexChar 8 cs).bind fun p1 =>
  (expectChar '-' p1.2).bind fun r2 =>
  (takeCount isHexChar 4 r2).bind fun p2 =>
  (expectChar '-' p2.2).bind fun r4 =>
  (takeCount isHexChar 4 r4).bind fun p3 =>
  (expectChar '-' p3.2).bind fun r6 =>
  (takeCount isHexChar 4 r6).bind fun p4 =>
  (expectChar '-' p4.2).bind fun r8 =>
  (takeCount isHexChar 12 r8).bind fun p5 =>
  some (p1.1 ++ '-' :: p2.1 ++ '-' :: p3.1 ++ '-' :: p4.1 ++ '-' :: p5.1, p5.2)

/-- Match the full replacement pattern `sep (uuid) close_sep` at the head of
the input (the regex `self.pattern`), returning the captured UUID group and
the remainder. -/
def matchSpanAt (sep close : Char) (cs : List Char) : Option (List Char × List Char) :=
  (expectChar sep cs).bind fun r1 =>
  (matchUUID r1).bind fun p =>
  (expectChar close p.2).bind fun r3 =>
  some (p.1, r3)

/-- The closing-separator table of `UUIDReplacer.__init__`
(`.get(sep, sep)`: any separator outside the table closes with itself). -/
def closeSepFor (sep : Char) : Char :=
  if sep = '[' then ']'
  else if sep = '(' then ')'
  else if sep = '\x7b' then '\x7d'
  else if sep = '<' then '>'
  else sep

/-- Find-first lookup in an association list, the semantics of reading a
Python dict key. -/
def lookupA (k : List Char) : Mapping → Option (List Char)
  | [] => none
  | p :: rest => if p.1 = k then some p.2 else lookupA k rest

/-- Python dict item assignment `d[k] = v`: overwrite the value of an
existing key in place, otherwise append the new pair. -/
def setKey (d : Mapping) (k v : List Char) : Mapping :=
  match d with
  | [] => [(k, v)]
  | p :: rest => if p.1 = k then (k, v) :: rest else p :: setKey rest k v

/-- Python `d.update(upd)`: assign every item of `upd` into `d` in order. -/
def dictUpdate (d upd : Mapping) : Mapping :=
  upd.foldl (fun acc p => setKey acc p.1 p.2) d

/-- State of a `UUIDReplacer` instance: configuration, the accumulated
identifier-to-placeholder mapping, and the counter. -/
structure UUIDReplacer where
  sep : Char
  close_sep : Char
  nr_digits : Nat
  uuid_mapping : Mapping
  counter : Nat
  deriving DecidableEq

/-- The constructor `UUIDReplacer.__init__`: store the configuration, derive
the closing separator, and start with an empty mapping and a zero counter.
The Python constructor performs no validation of `nr_digits`. -/
def UUIDReplacer.init (sep : Char) (nr_digits : Nat) : UUIDReplacer :=
  { sep := sep
    close_sep := closeSepFor sep
    nr_digits := nr_digits
    uuid_mapping := []
    counter := 0 }

/-- The method `_generate_replacement`: the placeholder for the current
counter value, `str(self.counter).zfill(self.nr_digits)`, together with the
state after `self.counter += 1`. -/
def UUIDReplacer.generate_replacement (r : UUIDReplacer) : List Char × UUIDReplacer :=
  (zfill (natDigits r.counter) r.nr_digits, { r with counter := r.counter + 1 })

/-- The method `_is_valid_uuid`, i.e. whether `uuid.UUID(s)` parses.  For the
shape-matched candidates this code feeds it, `uuid.UUID` reduces to removing
the hyphens and checking for exactly 32 hexadecimal digits (the `urn:` /
`uuid:` prefix stripping and brace stripping of `uuid.UUID` cannot fire on a
string made of hex digits and hyphens). -/
def is_valid_uuid (u : List Char) : Bool :=
  let h := u.filter (fun c => c ≠ '-')
  h.length == 32 && h.all isHexChar

/-- The `re.sub(self.pattern, replace_match, text)` loop of `replace_uuids`:
scan left to right; at a match of `sep (uuid) close_sep`, validate the
captured group, reuse the mapped placeholder or assign the next one, and
emit `sep + replacement + close_sep`; otherwise copy one character and
continue.  `fuel` only bounds the recursion; `fuel = text.length` always
suffices since every step consumes at least one character. -/
def replaceScanF (r : UUIDReplacer) : Nat → List Char → List Char × UUIDReplacer
  | _, [] => ([], r)
  | 0, c :: cs => (c :: cs, r)
  | fuel + 1, c :: cs =>
    match matchSpanAt r.sep r.close_sep (c :: cs) with
    | some (g, rest) =>
      if is_valid_uuid g then
        match lookupA g r.uuid_mapping with
        | some repl =>
          let res := replaceScanF r fuel rest
          (r.sep :: (repl ++ r.close_sep :: res.1), res.2)
        | none =>
          let gen := r.generate_replacement
          let r2 := { gen.2 with uuid_mapping := gen.2.uuid_mapping ++ [(g, gen.1)] }
          let res := replaceScanF r2 fuel rest
          (r.sep :: (gen.1 ++ r.close_sep :: res.1), res.2)
      else
        let res := replaceScanF r fuel rest
        (r.sep :: (g ++ r.close_sep :: res.1), res.2)
    | none =>
      let res := replaceScanF r fuel cs
      (c :: res.1, res.2)

/-- The method `replace_uuids`: run the substitution scan, returning the
modified text paired with a snapshot of the cumulative mapping, and the
mutated replacer. -/
def UUIDReplacer.replace_uuids (r : UUIDReplacer) (text : List Char) :
    (List Char × Mapping) × UUIDReplacer :=
  let res := replaceScanF r text.length text
  ((res.1, res.2.uuid_mapping), res.2)

/-- The method `reset`: clear the mapping and the counter. -/
def UUIDReplacer.reset (r : UUIDReplacer) : UUIDReplacer :=
  { r with uuid_mapping := [], counter := 0 }

/-- The function `clean_prompt`: one-shot replacement through a freshly
constructed replacer. -/
def clean_prompt (prompt : List Char) (sep : Char) (nr_digits : Nat) :
    List Char × Mapping :=
  ((UUIDReplacer.init sep nr_digits).replace_uuids prompt).1

/-- The reverse mapping `{v: k for k, v in mapping.items()}` of
`restore_output`: a dict built by assigning `k` under key `v` for every item
in order, so that for a duplicated value the last identifier wins. -/
def buildReverse (mapping : Mapping) : Mapping :=
  mapping.foldl (fun acc p => setKey acc p.2 p.1) []

/-- Match the digit pattern `sep (\d{n}) close_sep` of `restore_output` at
the head of the input. -/
def matchDigitsAt (sep close : Char) (n : Nat) (cs : List Char) :
    Option (List Char × List Char) :=
  (expectChar sep cs).bind fun r1 =>
  (takeCount isDecChar n r1).bind fun p =>
  (expectChar close p.2).bind fun r3 =>
  some (p.1, r3)

/-- The `re.sub(digit_pattern, restore_match, output)` loop of
`restore_output`: at each matched placeholder span, substitute the identifier
found in the reverse mapping, or leave the span verbatim when the digits are
not a key of the reverse mapping. -/
def restoreScanF (sep close : Char) (n : Nat) (revm : Mapping) :
    Nat → List Char → List Char
  | _, [] => []
  | 0, c :: cs => c :: cs
  | fuel + 1, c :: cs =>
    match matchDigitsAt sep close n (c :: cs) with
    | some (d, rest) =>
      match lookupA d revm with
      | some u => sep :: (u ++ close :: restoreScanF sep close n revm fuel rest)
      | none => sep :: (d ++ close :: restoreScanF sep close n revm fuel rest)
    | none => c :: restoreScanF sep close n revm fuel cs

/-- The function `restore_output`: derive the closing separator, build the
reverse mapping, and run the restoring scan. -/
def restore_output (output : List Char) (mapping : Mapping) (sep : Char)
    (nr_digits : Nat) : List Char :=
  restoreScanF sep (closeSepFor sep) nr_digits (buildReverse mapping)
    output.length output

/-- A Python value stored in a message dict: either a string or some other
value, kept opaque. -/
inductive PyVal where
  | str (s : List Char)
  | other (tag : Nat)
  deriving DecidableEq, Inhabited

/-- A message record: the value under the key `'content'` (`none` when the
key is absent) and the remaining key/value pairs. -/
structure Message where
  content : Option PyVal
  rest : List (List Char × PyVal)
  deriving DecidableEq, Inhabited

/-- The loop body of `process_messages`: thread one replacer through the
record list, transforming only string-typed `'content'` values, collecting
the processed records in order and accumulating `all_mappings.update(...)`. -/
def processLoop (r : UUIDReplacer) (allm : Mapping) :
    List Message → List Message × Mapping × UUIDReplacer
  | [] => ([], allm, r)
  | msg :: more =>
    match msg.content with
    | some (PyVal.str s) =>
      let step := r.replace_uuids s
      let allm1 := dictUpdate allm step.1.2
      let pm : Message := { msg with content := some (PyVal.str step.1.1) }
      let res := processLoop step.2 allm1 more
      (pm :: res.1, res.2.1, res.2.2)
    | _ =>
      let res := processLoop r allm more
      (msg :: res.1, res.2.1, res.2.2)

/-- The function `process_messages`: construct one fresh replacer, process
every record with it, and return the processed records with the accumulated
mapping. -/
def process_messages (messages : List Message) (sep : Char) (nr_digits : Nat) :
    List Message × Mapping :=
  let res := processLoop (UUIDReplacer.init sep nr_digits) [] messages
  (res.1, res.2.1)

/-- Iterated `replace_uuids` calls against one instance, used to state
properties of call sequences. -/
def replaceAll (r : UUIDReplacer) : List (List Char) → UUIDReplacer
  | [] => r
  | t :: ts => replaceAll (r.replace_uuids t).2 ts

/-- The string-typed `'content'` values of a record list, in order. -/
def stringContents (msgs : List Message) : List (List Char) :=
  msgs.filterMap fun m =>
    match m.content with
    | some (PyVal.str s) => some s
    | _ => none

/-- Whether a string is exactly one syntactic UUID (the 8-4-4-4-12
hexadecimal shape), i.e. the UUID regex matches it entirely. -/
def uuidShape (u : List Char) : Bool :=
  match matchUUID u with
  | some (_, rest) => rest.isEmpty
  | none => false

/-- Whether the replacement pattern `sep (uuid) close_sep` matches anywhere
in the text, i.e. whether the text contains a delimiter-wrapped UUID-shaped
span. -/
def hasUUIDSpan (sep close : Char) : List Char → Bool
  | [] => false
  | c :: cs => (matchSpanAt sep close (c :: cs)).isSome || hasUUIDSpan sep close cs

/-- A constituent of a text built around placeholder spans: either one
ordinary character or one delimited placeholder carrying its digit string. -/
inductive Piece where
  | plain (c : Char)
  | ph (d : List Char)
  deriving DecidableEq

/-- Rendering of one piece into text: a plain character stands for itself, a
placeholder is wrapped in the delimiter pair. -/
def renderPiece (sep close : Char) : Piece → List Char
  | Piece.plain c => [c]
  | Piece.ph d => sep :: (d ++ [close])

/-- Rendering of a piece list into the text it builds. -/
def render (sep close : Char) : List Piece → List Char
  | [] => []
  | p :: ps => renderPiece sep close p ++ render sep close ps

/-- Well-formedness of a piece list with respect to the restore pattern:
every placeholder piece holds exactly `n` decimal digits, and no placeholder
span of the pattern starts at any plain character (so the delimited
placeholder spans of the rendered text are exactly the `ph` pieces). -/
def wfPieces (sep close : Char) (n : Nat) : List Piece → Bool
  | [] => true
  | Piece.plain c :: ps =>
    !(matchDigitsAt sep close n (c :: render sep close ps)).isSome
      && wfPieces sep close n ps
  | Piece.ph d :: ps =>
    (d.length == n) && d.all isDecChar && wfPieces sep close n ps

/-- The effect of `restore_output` on one piece: a placeholder whose digits
are a key of the reverse mapping becomes the stored identifier, any other
piece is left as it is. -/
def restorePiece (revm : Mapping) : Piece → Piece
  | Piece.plain c => Piece.plain c
  | Piece.ph d => Piece.ph ((lookupA d revm).getD d)

/-- Whether every placeholder piece carries digits that occur among the
values of the given mapping. -/
def phValuesIn (ps : List Piece) (m : Mapping) : Bool :=
  ps.all fun p =>
    match p with
    | Piece.plain _ => true
    | Piece.ph d => m.any fun q => q.2 == d

/-- Modelled from the spec: the construction-time configuration check the
error-handling section prescribes ("the only way to fail loudly is to supply
structurally invalid configuration (e.g., a `nrDigits` ≤ 0), which
implementations should reject at construction time with a configuration
error").  The Python constructor in `utils.py` performs no such check; this
definition exists to compare the spec's words against the code. -/
def initChecked (sep : Char) (nr_digits : Nat) : Option UUIDReplacer :=
  if nr_digits ≤ 0 then none else some (UUIDReplacer.init sep nr_digits)

/-- A heap of message-dict objects, for stating that `process_messages` does
not mutate the records it is given: Python dicts are mutable objects, so the
records are modelled as cells in an object store addressed by index. -/
structure Heap where
  objs : List Message
  deriving DecidableEq, Inhabited

/-- Allocation of a fresh object holding `m` (the effect of
`message.copy()`), returning the grown heap and the new reference. -/
def heapAlloc (h : Heap) (m : Message) : Heap × Nat :=
  ({ objs := h.objs ++ [m] }, h.objs.length)

/-- In-place mutation of the object at reference `i` (the effect of
`processed_message['content'] = ...`). -/
def heapSet (h : Heap) (i : Nat) (m : Message) : Heap :=
  { objs := h.objs.set i m }

/-- Read of the object at reference `i`. -/
def heapGet (h : Heap) (i : Nat) : Message :=
  h.objs.getD i default

/-- The loop of `process_messages` with the record dicts held in an explicit
object store: each iteration copies the current record into a fresh cell and
mutates only that copy, exactly as `processed_message = message.copy()`
followed by the `'content'` assignment does. -/
def processLoopHeap (r : UUIDReplacer) (allm : Mapping) (h : Heap) :
    List Nat → Heap × List Nat × Mapping × UUIDReplacer
  | [] => (h, [], allm, r)
  | ref :: more =>
    let msg := heapGet h ref
    let alloc := heapAlloc h msg
    match msg.content with
    | some (PyVal.str s) =>
      let step := r.replace_uuids s
      let h2 := heapSet alloc.1 alloc.2 { msg with content := some (PyVal.str step.1.1) }
      let allm1 := dictUpdate allm step.1.2
      let res := processLoopHeap step.2 allm1 h2 more
      (res.1, alloc.2 :: res.2.1, res.2.2)
    | _ =>
      let res := processLoopHeap r allm alloc.1 more
      (res.1, alloc.2 :: res.2.1, res.2.2)

/-- The function `process_messages` over the object store: fresh replacer,
empty accumulated mapping, then the loop. -/
def process_messages_heap (h : Heap) (refs : List Nat) (sep : Char)
    (nr_digits : Nat) : Heap × List Nat × Mapping × UUIDReplacer :=
  processLoopHeap (UUIDReplacer.init sep nr_digits) [] h refs

/-- The state change of the fresh-identifier branch of `replace_match`:
generate the next placeholder and append the new pair to the mapping. -/
def insertFresh (r : UUIDReplacer) (g : List Char) : UUIDReplacer :=
  { r with
    counter := r.counter + 1
    uuid_mapping :=
      r.uuid_mapping ++ [(g, zfill (natDigits r.counter) r.nr_digits)] }

/-- The state invariant of a replacer reachable from a fresh instance: the
mapping's values are, in insertion order, exactly the placeholders of the
counter values `0, 1, ..., counter - 1`, and its keys are pairwise
distinct. -/
def mappingInv (r : UUIDReplacer) : Prop :=
  r.uuid_mapping.map Prod.snd
      = (List.range r.counter).map (fun i => zfill (natDigits i) r.nr_digits)
    ∧ (r.uuid_mapping.map Prod.fst).Nodup

/-! Lemmas about the primitive matchers. -/

theorem takeCount_spec {p : Char → Bool} {n : Nat} {cs d r : List Char}
    (h : takeCount p n cs = some (d, r)) :
    cs = d ++ r ∧ d.length = n ∧ d.all p = true := by
  induction n generalizing cs d r with
  | zero =>
    simp only [takeCount, Option.some.injEq, Prod.mk.injEq] at h
    obtain ⟨h1, h2⟩ := h
    subst h1; subst h2; simp
  | succ n ih =>
    match cs with
    | [] => simp [takeCount] at h
    | c :: cs =>
      simp only [takeCount] at h
      by_cases hp : p c
      · rw [if_pos hp] at h
        cases htc : takeCount p n cs with
        | none => rw [htc] at h; exact absurd h (by simp)
        | some pr =>
          obtain ⟨d', r'⟩ := pr
          rw [htc] at h
          simp only [Option.some.injEq, Prod.mk.injEq] at h
          obtain ⟨hd, hr⟩ := h
          obtain ⟨hcs, hlen, hall⟩ := ih htc
          subst hd; subst hr; subst hcs
          simp [hlen, hall, hp]
      · rw [if_neg hp] at h; exact absurd h (by simp)

theorem takeCount_exact {p : Char → Bool} {n : Nat} {d : List Char} (r : List Char)
    (hlen : d.length = n) (hall : d.all p = true) :
    takeCount p n (d ++ r) = some (d, r) := by
  induction d generalizing n with
  | nil => subst hlen; simp [takeCount]
  | cons c d ih =>
    subst hlen
    simp only [List.all_cons, Bool.and_eq_true] at hall
    simp [takeCount, hall.1, ih rfl hall.2]

theorem expectChar_spec {c : Char} {cs r : List Char}
    (h : expectChar c cs = some r) : cs = c :: r := by
  match cs with
  | [] => simp [expectChar] at h
  | x :: t =>
    simp only [expectChar] at h
    by_cases hx : x = c
    · rw [if_pos hx] at h
      simp only [Option.some.injEq] at h
      subst hx; subst h; rfl
    · rw [if_neg hx] at h; exact absurd h (by simp)

theorem expectChar_cons (c : Char) (r : List Char) :
    expectChar c (c :: r) = some r := by
  simp [expectChar]

theorem is_valid_uuid_parts {a b c d e : List Char}
    (hla : a.length = 8) (hlb : b.length = 4) (hlc : c.length = 4)
    (hld : d.length = 4) (hle : e.length = 12)
    (haa : a.all isHexChar = true) (hab : b.all isHexChar = true)
    (hac : c.all isHexChar = true) (had : d.all isHexChar = true)
    (hae : e.all isHexChar = true) :
    is_valid_uuid (a ++ '-' :: b ++ '-' :: c ++ '-' :: d ++ '-' :: e) = true := by
  have hfa : ∀ l : List Char, l.all isHexChar = true →
      l.filter (fun x => x ≠ '-') = l := by
    intro l hl
    rw [List.filter_eq_self]
    intro x hxl
    have hx := List.all_eq_true.mp hl x hxl
    have : ¬x = '-' := by
      intro heq
      subst heq
      exact absurd hx (by decide)
    simp [this]
  have hneg : (decide (('-' : Char) ≠ '-')) = false := by decide
  simp only [is_valid_uuid, List.filter_append, List.filter_cons, hneg,
    Bool.false_eq_true, if_false]
  rw [hfa a haa, hfa b hab, hfa c hac, hfa d had, hfa e hae]
  simp only [List.length_append, hla, hlb, hlc, hld, hle, List.all_append,
    haa, hab, hac, had, hae, Bool.and_true, Bool.true_and]
  decide

theorem matchUUID_spec {cs g r : List Char} (h : matchUUID cs = some (g, r)) :
    cs = g ++ r ∧ g.length = 36 ∧ is_valid_uuid g = true := by
  simp only [matchUUID, Option.bind_eq_some, Option.some.injEq, Prod.mk.injEq] at h
  obtain ⟨⟨a, r1⟩, h1, r2, h2, ⟨b, r3⟩, h3, r4, h4, ⟨c, r5⟩, h5, r6, h6,
    ⟨d, r7⟩, h7, r8, h8, ⟨e, r9⟩, h9, hg, hr⟩ := h
  dsimp only at h2 h4 h6 h8 hg hr
  obtain ⟨hcs1, hla, haa⟩ := takeCount_spec h1
  have hr1 := expectChar_spec h2
  obtain ⟨hcs3, hlb, hab⟩ := takeCount_spec h3
  have hr3 := expectChar_spec h4
  obtain ⟨hcs5, hlc, hac⟩ := takeCount_spec h5
  have hr5 := expectChar_spec h6
  obtain ⟨hcs7, hld, had⟩ := takeCount_spec h7
  have hr7 := expectChar_spec h8
  obtain ⟨hcs9, hle, hae⟩ := takeCount_spec h9
  subst hg; subst hr
  refine ⟨?_, ?_, ?_⟩
  · rw [hcs1, hr1, hcs3, hr3, hcs5, hr5, hcs7, hr7, hcs9]
    simp
  · simp [hla, hlb, hlc, hld, hle]
  · exact is_valid_uuid_parts hla hlb hlc hld hle haa hab hac had hae

theorem takeCount_append {p : Char → Bool} {n : Nat} {cs d r : List Char}
    (t : List Char) (h : takeCount p n cs = some (d, r)) :
    takeCount p n (cs ++ t) = some (d, r ++ t) := by
  obtain ⟨hcs, hlen, hall⟩ := takeCount_spec h
  subst hcs
  rw [List.append_assoc]
  exact takeCount_exact (r ++ t) hlen hall

theorem expectChar_append {c : Char} {cs r : List Char} (t : List Char)
    (h : expectChar c cs = some r) : expectChar c (cs ++ t) = some (r ++ t) := by
  rw [expectChar_spec h]
  exact expectChar_cons c (r ++ t)

theorem matchUUID_append {cs g r : List Char} (t : List Char)
    (h : matchUUID cs = some (g, r)) :
    matchUUID (cs ++ t) = some (g, r ++ t) := by
  simp only [matchUUID, Option.bind_eq_some, Option.some.injEq, Prod.mk.injEq] at h
  obtain ⟨⟨a, r1⟩, h1, r2, h2, ⟨b, r3⟩, h3, r4, h4, ⟨c, r5⟩, h5, r6, h6,
    ⟨d, r7⟩, h7, r8, h8, ⟨e, r9⟩, h9, hg, hr⟩ := h
  dsimp only at h2 h4 h6 h8 hg hr
  subst hr
  simp only [matchUUID, takeCount_append t h1, Option.some_bind,
    expectChar_append t h2, takeCount_append t h3, expectChar_append t h4,
    takeCount_append t h5, expectChar_append t h6, takeCount_append t h7,
    expectChar_append t h8, takeCount_append t h9, Option.some.injEq,
    Prod.mk.injEq]
  exact ⟨hg, by trivial⟩

theorem uuidShape_matchUUID {u : List Char} (h : uuidShape u = true) :
    matchUUID u = some (u, []) := by
  unfold uuidShape at h
  cases hm : matchUUID u with
  | none => rw [hm] at h; exact absurd h (by simp)
  | some pr =>
    obtain ⟨g, rest⟩ := pr
    rw [hm] at h
    simp only [List.isEmpty_iff] at h
    subst h
    obtain ⟨hu, _, _⟩ := matchUUID_spec hm
    rw [List.append_nil] at hu
    subst hu
    first
    | exact hm
    | rfl

theorem matchUUID_exact {u : List Char} (t : List Char) (h : uuidShape u = true) :
    matchUUID (u ++ t) = some (u, t) := by
  have := matchUUID_append t (uuidShape_matchUUID h)
  simpa using this

theorem uuidShape_length {u : List Char} (h : uuidShape u = true) :
    u.length = 36 :=
  (matchUUID_spec (uuidShape_matchUUID h)).2.1

theorem uuidShape_valid {u : List Char} (h : uuidShape u = true) :
    is_valid_uuid u = true :=
  (matchUUID_spec (uuidShape_matchUUID h)).2.2

theorem matchSpanAt_exact {u : List Char} (sep close : Char) (rest : List Char)
    (h : uuidShape u = true) :
    matchSpanAt sep close (sep :: (u ++ close :: rest)) = some (u, rest) := by
  have hm : matchUUID (u ++ close :: rest) = some (u, close :: rest) :=
    matchUUID_exact (close :: rest) h
  simp only [matchSpanAt, expectChar_cons, Option.some_bind, hm]

theorem matchDigitsAt_exact {d : List Char} {n : Nat} (sep close : Char)
    (rest : List Char) (hlen : d.length = n) (hall : d.all isDecChar = true) :
    matchDigitsAt sep close n (sep :: (d ++ close :: rest)) = some (d, rest) := by
  have hd : takeCount isDecChar n (d ++ close :: rest) = some (d, close :: rest) :=
    takeCount_exact (close :: rest) hlen hall
  simp only [matchDigitsAt, expectChar_cons, Option.some_bind, hd]

theorem matchSpanAt_length {sep close : Char} {cs g rest : List Char}
    (h : matchSpanAt sep close cs = some (g, rest)) :
    cs.length = rest.length + 38 := by
  simp only [matchSpanAt, Option.bind_eq_some, Option.some.injEq,
    Prod.mk.injEq] at h
  obtain ⟨r1, h1, ⟨g', r2⟩, h2, r3, h3, hg, hr⟩ := h
  dsimp only at h3 hg
  subst hg; subst hr
  obtain ⟨hdec, hlen, _⟩ := matchUUID_spec h2
  have e1 := expectChar_spec h1
  have e3 := expectChar_spec h3
  subst e1
  rw [hdec, e3]
  simp [hlen]
  omega

/-! Lemmas about decimal digit strings and zero padding. -/

theorem charVal_digitChar {k : Nat} (h : k < 10) : charVal (digitChar k) = k := by
  interval_cases k <;> decide

theorem decVal_append_digit (a : List Char) (c : Char) :
    decVal (a ++ [c]) = 10 * decVal a + charVal c := by
  simp [decVal, List.foldl_append]

theorem decVal_single (c : Char) : decVal [c] = charVal c := by
  simp [decVal]

theorem decVal_cons_zero (s : List Char) : decVal ('0' :: s) = decVal s := rfl

theorem decVal_replicate_zero (m : Nat) (s : List Char) :
    decVal (List.replicate m '0' ++ s) = decVal s := by
  induction m with
  | zero => simp
  | succ m ih => rw [List.replicate_succ, List.cons_append, decVal_cons_zero, ih]

theorem decVal_zfill (s : List Char) (w : Nat) : decVal (zfill s w) = decVal s :=
  decVal_replicate_zero _ s

theorem decVal_natDigitsF {fuel n : Nat} (h : n ≤ fuel) :
    decVal (natDigitsF fuel n) = n := by
  induction fuel generalizing n with
  | zero =>
    have hn : n = 0 := by omega
    subst hn
    decide
  | succ fuel ih =>
    by_cases h10 : n < 10
    · rw [show natDigitsF (fuel + 1) n = [digitChar n] from by
        simp [natDigitsF, h10]]
      rw [decVal_single, charVal_digitChar h10]
    · have hd : n / 10 ≤ fuel := by
        have := Nat.div_lt_self (by omega : 0 < n) (by omega : 1 < 10)
        omega
      simp only [natDigitsF, if_neg h10]
      rw [decVal_append_digit, ih hd, charVal_digitChar (Nat.mod_lt n (by omega))]
      omega

theorem decVal_natDigits (n : Nat) : decVal (natDigits n) = n :=
  decVal_natDigitsF (Nat.le_refl n)

theorem zfill_natDigits_inj {w n1 n2 : Nat}
    (h : zfill (natDigits n1) w = zfill (natDigits n2) w) : n1 = n2 := by
  have h1 := congrArg decVal h
  rw [decVal_zfill, decVal_zfill, decVal_natDigits, decVal_natDigits] at h1
  exact h1

theorem natDigitsF_length_ge {fuel n w : Nat} (hf : n ≤ fuel)
    (hw : 10 ^ w ≤ n) : w + 1 ≤ (natDigitsF fuel n).length := by
  induction fuel generalizing n w with
  | zero =>
    have := Nat.pow_pos (by omega : 0 < 10) (n := w)
    omega
  | succ fuel ih =>
    by_cases h10 : n < 10
    · have hw0 : w = 0 := by
        by_contra hne
        have h1 : 10 ≤ 10 ^ w := by
          calc 10 = 10 ^ 1 := by norm_num
          _ ≤ 10 ^ w := Nat.pow_le_pow_right (by omega) (by omega)
        omega
      subst hw0
      simp [natDigitsF, h10]
    · simp only [natDigitsF, if_neg h10, List.length_append, List.length_singleton]
      match w with
      | 0 => omega
      | w + 1 =>
        have hd : n / 10 ≤ fuel := by
          have := Nat.div_lt_self (by omega : 0 < n) (by omega : 1 < 10)
          omega
        have hw' : 10 ^ w ≤ n / 10 := by
          rw [Nat.le_div_iff_mul_le (by omega : 0 < 10)]
          calc 10 ^ w * 10 = 10 ^ (w + 1) := by ring
          _ ≤ n := hw
        have := ih hd hw'
        omega

theorem zfill_length (s : List Char) (w : Nat) :
    (zfill s w).length = max w s.length := by
  simp [zfill]
  omega

theorem zfill_natDigits_length_gt {w n : Nat} (hw : 10 ^ w ≤ n) :
    w < (zfill (natDigits n) w).length := by
  have h1 := natDigitsF_length_ge (Nat.le_refl n) hw
  rw [zfill_length]
  have : w + 1 ≤ (natDigits n).length := h1
  omega

/-! Lemmas about association lists used as Python dicts. -/

theorem lookupA_append_some {k : List Char} {a : Mapping} {v : List Char}
    (b : Mapping) (h : lookupA k a = some v) : lookupA k (a ++ b) = some v := by
  induction a with
  | nil => simp [lookupA] at h
  | cons p rest ih =>
    simp only [lookupA, List.cons_append] at h ⊢
    by_cases hp : p.1 = k
    · rw [if_pos hp] at h ⊢; exact h
    · rw [if_neg hp] at h ⊢; exact ih h

theorem lookupA_append_none {k : List Char} {a : Mapping}
    (b : Mapping) (h : lookupA k a = none) : lookupA k (a ++ b) = lookupA k b := by
  induction a with
  | nil => simp
  | cons p rest ih =>
    simp only [lookupA, List.cons_append] at h ⊢
    by_cases hp : p.1 = k
    · rw [if_pos hp] at h; exact absurd h (by simp)
    · rw [if_neg hp] at h ⊢; exact ih h

theorem lookupA_eq_none_iff {k : List Char} {d : Mapping} :
    lookupA k d = none ↔ k ∉ d.map Prod.fst := by
  induction d with
  | nil => simp [lookupA]
  | cons p rest ih =>
    simp only [lookupA, List.map_cons, List.mem_cons]
    by_cases hp : p.1 = k
    · simp [if_pos hp, hp]
    · simp only [if_neg hp, ih]
      constructor
      · intro h hc
        rcases hc with hc | hc
        · exact hp hc.symm
        · exact h hc
      · intro h hc
        exact h (Or.inr hc)

theorem lookupA_append_none_iff {k : List Char} {a b : Mapping} :
    lookupA k (a ++ b) = none ↔ lookupA k a = none ∧ lookupA k b = none := by
  simp [lookupA_eq_none_iff, List.map_append, List.mem_append, not_or]

theorem lookupA_mem {k v : List Char} {d : Mapping}
    (h : lookupA k d = some v) : (k, v) ∈ d := by
  induction d with
  | nil => simp [lookupA] at h
  | cons p rest ih =>
    simp only [lookupA] at h
    by_cases hp : p.1 = k
    · rw [if_pos hp] at h
      simp only [Option.some.injEq] at h
      rw [← hp, ← h]
      exact List.mem_cons_self p rest
    · rw [if_neg hp] at h
      exact List.mem_cons_of_mem _ (ih h)

theorem lookupA_of_mem_nodup {k v : List Char} {d : Mapping}
    (hnd : (d.map Prod.fst).Nodup) (hm : (k, v) ∈ d) : lookupA k d = some v := by
  induction d with
  | nil => simp at hm
  | cons p rest ih =>
    simp only [List.map_cons, List.nodup_cons] at hnd
    rcases List.mem_cons.mp hm with hm | hm
    · subst hm
      simp [lookupA]
    · have hne : p.1 ≠ k := by
        intro heq
        exact hnd.1 (heq ▸ List.mem_map_of_mem Prod.fst hm)
      simp only [lookupA, if_neg hne]
      exact ih hnd.2 hm

theorem lookupA_setKey_same (d : Mapping) (k v : List Char) :
    lookupA k (setKey d k v) = some v := by
  induction d with
  | nil => simp [setKey, lookupA]
  | cons p rest ih =>
    simp only [setKey]
    by_cases hp : p.1 = k
    · simp [if_pos hp, lookupA]
    · rw [if_neg hp]
      simp only [lookupA, if_neg hp]
      exact ih

theorem lookupA_setKey_other {q k : List Char} (d : Mapping) (v : List Char)
    (h : q ≠ k) : lookupA q (setKey d k v) = lookupA q d := by
  induction d with
  | nil =>
    simp only [setKey, lookupA]
    rw [if_neg (fun hc : k = q => h hc.symm)]
  | cons p rest ih =>
    simp only [setKey]
    by_cases hp : p.1 = k
    · have h1 : ¬(k = q) := fun hc => h hc.symm
      have h2 : ¬(p.1 = q) := fun hc => h ((hp.symm.trans hc).symm)
      simp only [if_pos hp, lookupA, if_neg h1, if_neg h2]
    · rw [if_neg hp]
      simp only [lookupA, ih]

theorem setKey_fresh {d : Mapping} {k : List Char} (v : List Char)
    (h : lookupA k d = none) : setKey d k v = d ++ [(k, v)] := by
  induction d with
  | nil => simp [setKey]
  | cons p rest ih =>
    simp only [lookupA] at h
    by_cases hp : p.1 = k
    · rw [if_pos hp] at h; exact absurd h (by simp)
    · rw [if_neg hp] at h
      simp only [setKey, if_neg hp, List.cons_append]
      exact congrArg (List.cons p) (ih h)

theorem setKey_mem_nodup {d : Mapping} {k v : List Char}
    (hnd : (d.map Prod.fst).Nodup) (hm : (k, v) ∈ d) : setKey d k v = d := by
  induction d with
  | nil => simp at hm
  | cons p rest ih =>
    simp only [List.map_cons, List.nodup_cons] at hnd
    rcases List.mem_cons.mp hm with hm | hm
    · subst hm
      simp [setKey]
    · have hne : p.1 ≠ k := by
        intro heq
        exact hnd.1 (heq ▸ List.mem_map_of_mem Prod.fst hm)
      simp only [setKey, if_neg hne]
      exact congrArg (List.cons p) (ih hnd.2 hm)

theorem foldl_setKey_self {d u : Mapping}
    (hnd : (d.map Prod.fst).Nodup) (hu : ∀ p ∈ u, p ∈ d) :
    u.foldl (fun acc p => setKey acc p.1 p.2) d = d := by
  induction u with
  | nil => rfl
  | cons p rest ih =>
    rw [List.foldl_cons, setKey_mem_nodup hnd (hu p (List.mem_cons_self p rest))]
    exact ih fun q hq => hu q (List.mem_cons_of_mem p hq)

theorem foldl_setKey_fresh {ext : Mapping} :
    ∀ {acc : Mapping}, (∀ p ∈ ext, lookupA p.1 acc = none) →
    (ext.map Prod.fst).Nodup →
    ext.foldl (fun acc p => setKey acc p.1 p.2) acc = acc ++ ext := by
  induction ext with
  | nil => intro acc _ _; simp
  | cons p rest ih =>
    intro acc hfresh hnd
    simp only [List.map_cons, List.nodup_cons] at hnd
    rw [List.foldl_cons, setKey_fresh p.2 (hfresh p (List.mem_cons_self p rest))]
    rw [ih ?_ hnd.2]
    · simp
    · intro q hq
      rw [lookupA_append_none _ (hfresh q (List.mem_cons_of_mem p hq))]
      have hne : p.1 ≠ q.1 := by
        intro heq
        exact hnd.1 (heq ▸ List.mem_map_of_mem Prod.fst hq)
      simp [lookupA, hne]

theorem dictUpdate_extend {d ext : Mapping}
    (hnd : ((d ++ ext).map Prod.fst).Nodup) : dictUpdate d (d ++ ext) = d ++ ext := by
  rw [List.map_append, List.nodup_append] at hnd
  unfold dictUpdate
  rw [List.foldl_append, foldl_setKey_self hnd.1 (fun p hp => hp)]
  refine foldl_setKey_fresh ?_ hnd.2.1
  intro p hp
  rw [lookupA_eq_none_iff]
  intro hc
  exact hnd.2.2 hc (List.mem_map_of_mem Prod.fst hp)

/-! Lemmas about the reverse mapping of `restore_output`. -/

theorem lookupA_foldl_swap (m : Mapping) :
    ∀ (acc : Mapping) (v : List Char),
    lookupA v (m.foldl (fun a p => setKey a p.2 p.1) acc) =
      match lookupA v (m.reverse.map fun p => (p.2, p.1)) with
      | some k => some k
      | none => lookupA v acc := by
  induction m with
  | nil => intro acc v; simp [lookupA]
  | cons p m ih =>
    intro acc v
    rw [List.foldl_cons, ih]
    rw [List.reverse_cons, List.map_append]
    cases hm : lookupA v (m.reverse.map fun p => (p.2, p.1)) with
    | some k => rw [lookupA_append_some _ hm]
    | none =>
      rw [lookupA_append_none _ hm]
      simp only [List.map_cons, List.map_nil, lookupA]
      by_cases hv : p.2 = v
      · rw [if_pos hv, hv, lookupA_setKey_same]
      · rw [if_neg hv, lookupA_setKey_other _ _ (fun hc => hv hc.symm)]

theorem buildReverse_lookup (m : Mapping) (v : List Char) :
    lookupA v (buildReverse m) =
      lookupA v (m.reverse.map fun p => (p.2, p.1)) := by
  unfold buildReverse
  rw [lookupA_foldl_swap]
  cases hm : lookupA v (m.reverse.map fun p => (p.2, p.1)) <;> simp [lookupA]

theorem buildReverse_mem {m : Mapping} {v k : List Char}
    (h : lookupA v (buildReverse m) = some k) : (k, v) ∈ m := by
  rw [buildReverse_lookup] at h
  have hmem := lookupA_mem h
  simp only [List.mem_map, List.mem_reverse] at hmem
  obtain ⟨⟨k', v'⟩, hq, heq⟩ := hmem
  simp only [Prod.mk.injEq] at heq
  obtain ⟨h1, h2⟩ := heq
  subst h1
  subst h2
  exact hq

theorem buildReverse_none_iff (m : Mapping) (v : List Char) :
    lookupA v (buildReverse m) = none ↔ v ∉ m.map Prod.snd := by
  rw [buildReverse_lookup, lookupA_eq_none_iff]
  have hk : (m.reverse.map fun p => (p.2, p.1)).map Prod.fst
      = (m.map Prod.snd).reverse := by
    rw [List.map_map, ← List.map_reverse]
    rfl
  rw [hk, List.mem_reverse]

theorem buildReverse_isSome {m : Mapping} {v : List Char}
    (h : v ∈ m.map Prod.snd) : (lookupA v (buildReverse m)).isSome = true := by
  cases hl : lookupA v (buildReverse m) with
  | none => exact absurd ((buildReverse_none_iff m v).mp hl) (fun hc => hc h)
  | some k => rfl

theorem buildReverse_unique {m : Mapping} {v k : List Char}
    (hnd : (m.map Prod.snd).Nodup) (hm : (k, v) ∈ m) :
    lookupA v (buildReverse m) = some k := by
  rw [buildReverse_lookup]
  apply lookupA_of_mem_nodup
  · have hk : (m.reverse.map fun p => (p.2, p.1)).map Prod.fst
        = (m.map Prod.snd).reverse := by
      rw [List.map_map, ← List.map_reverse]
      rfl
    rw [hk]
    exact List.nodup_reverse.mpr hnd
  · simp only [List.mem_map, List.mem_reverse]
    exact ⟨(k, v), hm, rfl⟩

/-! Step equations for the substitution scan. -/

theorem replaceScanF_nil (r : UUIDReplacer) (fuel : Nat) :
    replaceScanF r fuel [] = ([], r) := by
  cases fuel <;> rfl

theorem replaceScanF_zero (r : UUIDReplacer) (c : Char) (cs : List Char) :
    replaceScanF r 0 (c :: cs) = (c :: cs, r) := rfl

theorem replaceScanF_no_match {r : UUIDReplacer} {c : Char} {cs : List Char}
    (fuel : Nat) (hm : matchSpanAt r.sep r.close_sep (c :: cs) = none) :
    replaceScanF r (fuel + 1) (c :: cs)
      = (c :: (replaceScanF r fuel cs).1, (replaceScanF r fuel cs).2) := by
  simp [replaceScanF, hm]

theorem replaceScanF_invalid {r : UUIDReplacer} {c : Char} {cs g rest : List Char}
    (fuel : Nat) (hm : matchSpanAt r.sep r.close_sep (c :: cs) = some (g, rest))
    (hv : is_valid_uuid g = false) :
    replaceScanF r (fuel + 1) (c :: cs)
      = (r.sep :: (g ++ r.close_sep :: (replaceScanF r fuel rest).1),
         (replaceScanF r fuel rest).2) := by
  simp [replaceScanF, hm, hv]

theorem replaceScanF_seen {r : UUIDReplacer} {c : Char} {cs g rest repl : List Char}
    (fuel : Nat) (hm : matchSpanAt r.sep r.close_sep (c :: cs) = some (g, rest))
    (hv : is_valid_uuid g = true) (hl : lookupA g r.uuid_mapping = some repl) :
    replaceScanF r (fuel + 1) (c :: cs)
      = (r.sep :: (repl ++ r.close_sep :: (replaceScanF r fuel rest).1),
         (replaceScanF r fuel rest).2) := by
  simp [replaceScanF, hm, hv, hl]

theorem replaceScanF_fresh {r : UUIDReplacer} {c : Char} {cs g rest : List Char}
    (fuel : Nat) (hm : matchSpanAt r.sep r.close_sep (c :: cs) = some (g, rest))
    (hv : is_valid_uuid g = true) (hl : lookupA g r.uuid_mapping = none) :
    replaceScanF r (fuel + 1) (c :: cs)
      = (r.sep :: (zfill (natDigits r.counter) r.nr_digits ++ r.close_sep ::
           (replaceScanF (insertFresh r g) fuel rest).1),
         (replaceScanF (insertFresh r g) fuel rest).2) := by
  simp [replaceScanF, hm, hv, hl, UUIDReplacer.generate_replacement, insertFresh]

/-! The master lemma about the state change of one substitution scan: the
mapping grows by a fresh-keyed suffix whose values continue the canonical
placeholder sequence, the counter advances by the number of new entries, and
the configuration fields are untouched. -/

theorem UUIDReplacer_update_eq {r : UUIDReplacer} {m1 m2 : Mapping} {c1 c2 : Nat}
    (hm : m1 = m2) (hc : c1 = c2) :
    ({ r with uuid_mapping := m1, counter := c1 } : UUIDReplacer)
      = { r with uuid_mapping := m2, counter := c2 } := by
  rw [hm, hc]

theorem replaceScanF_master (fuel : Nat) :
    ∀ (r : UUIDReplacer) (cs : List Char), ∃ ext : Mapping,
      (replaceScanF r fuel cs).2
        = { r with uuid_mapping := r.uuid_mapping ++ ext,
                   counter := r.counter + ext.length }
      ∧ ext.map Prod.snd
          = (List.range' r.counter ext.length).map
              (fun i => zfill (natDigits i) r.nr_digits)
      ∧ (∀ p ∈ ext, lookupA p.1 r.uuid_mapping = none)
      ∧ (ext.map Prod.fst).Nodup := by
  induction fuel with
  | zero =>
    intro r cs
    refine ⟨[], ?_, by simp, by simp, List.nodup_nil⟩
    cases cs with
    | nil => rw [replaceScanF_nil]; simp
    | cons c cs => rw [replaceScanF_zero]; simp
  | succ fuel ih =>
    intro r cs
    cases cs with
    | nil =>
      refine ⟨[], ?_, by simp, by simp, List.nodup_nil⟩
      rw [replaceScanF_nil]; simp
    | cons c cs =>
      cases hm : matchSpanAt r.sep r.close_sep (c :: cs) with
      | none =>
        obtain ⟨ext, h1, h2, h3, h4⟩ := ih r cs
        exact ⟨ext, by rw [replaceScanF_no_match fuel hm]; exact h1, h2, h3, h4⟩
      | some pr =>
        obtain ⟨g, rest⟩ := pr
        cases hv : is_valid_uuid g with
        | false =>
          obtain ⟨ext, h1, h2, h3, h4⟩ := ih r rest
          exact ⟨ext, by rw [replaceScanF_invalid fuel hm hv]; exact h1, h2, h3, h4⟩
        | true =>
          cases hl : lookupA g r.uuid_mapping with
          | some repl =>
            obtain ⟨ext, h1, h2, h3, h4⟩ := ih r rest
            exact ⟨ext, by rw [replaceScanF_seen fuel hm hv hl]; exact h1, h2, h3, h4⟩
          | none =>
            obtain ⟨ext, h1, h2, h3, h4⟩ := ih (insertFresh r g) rest
            refine ⟨(g, zfill (natDigits r.counter) r.nr_digits) :: ext,
              ?_, ?_, ?_, ?_⟩
            · rw [replaceScanF_fresh fuel hm hv hl, h1]
              simp only [insertFresh]
              exact UUIDReplacer_update_eq (by simp) (by simp; omega)
            · simp only [List.map_cons, List.length_cons, List.range'_succ]
              refine congrArg (List.cons _) ?_
              simpa only [insertFresh] using h2
            · intro p hp
              rcases List.mem_cons.mp hp with hp | hp
              · rw [hp]; exact hl
              · have := h3 p hp
                simp only [insertFresh] at this
                exact (lookupA_append_none_iff.mp this).1
            · simp only [List.map_cons, List.nodup_cons]
              refine ⟨?_, h4⟩
              intro hc
              obtain ⟨p, hp, hpe⟩ := List.mem_map.mp hc
              have := h3 p hp
              simp only [insertFresh] at this
              have h2' := (lookupA_append_none_iff.mp this).2
              rw [hpe] at h2'
              simp [lookupA] at h2'

theorem mappingInv_init (sep : Char) (w : Nat) :
    mappingInv (UUIDReplacer.init sep w) := by
  refine ⟨?_, ?_⟩ <;> simp [mappingInv, UUIDReplacer.init]

theorem range_append_range' (c k : Nat) :
    List.range c ++ List.range' c k = List.range (c + k) := by
  have happ := List.range'_append 0 c k 1
  have h0 : (0 : Nat) + 1 * c = c := by omega
  rw [h0] at happ
  rw [List.range_eq_range', List.range_eq_range', Nat.add_comm c k]
  exact happ

theorem replaceScanF_inv {r : UUIDReplacer} (fuel : Nat) (cs : List Char)
    (h : mappingInv r) : mappingInv (replaceScanF r fuel cs).2 := by
  obtain ⟨ext, h1, h2, h3, h4⟩ := replaceScanF_master fuel r cs
  rw [h1]
  constructor
  · show (r.uuid_mapping ++ ext).map Prod.snd
        = (List.range (r.counter + ext.length)).map
            (fun i => zfill (natDigits i) r.nr_digits)
    rw [List.map_append, h.1, h2, ← List.map_append]
    exact congrArg _ (range_append_range' r.counter ext.length)
  · show ((r.uuid_mapping ++ ext).map Prod.fst).Nodup
    rw [List.map_append, List.nodup_append]
    refine ⟨h.2, h4, ?_⟩
    intro a ha hc
    obtain ⟨p, hp, hpe⟩ := List.mem_map.mp hc
    have := h3 p hp
    rw [lookupA_eq_none_iff] at this
    rw [hpe] at this
    exact this ha

theorem replaceScanF_stable (fuel : Nat) :
    ∀ (r : UUIDReplacer) (cs : List Char),
      replaceScanF (replaceScanF r fuel cs).2 fuel cs = replaceScanF r fuel cs := by
  induction fuel with
  | zero =>
    intro r cs
    cases cs with
    | nil => rw [replaceScanF_nil, replaceScanF_nil]
    | cons c cs => rw [replaceScanF_zero, replaceScanF_zero]
  | succ fuel ih =>
    intro r cs
    cases cs with
    | nil => rw [replaceScanF_nil, replaceScanF_nil]
    | cons c cs =>
      cases hm : matchSpanAt r.sep r.close_sep (c :: cs) with
      | none =>
        obtain ⟨ext, hst, _, _, _⟩ := replaceScanF_master fuel r cs
        have hm2 : matchSpanAt (replaceScanF r fuel cs).2.sep
            (replaceScanF r fuel cs).2.close_sep (c :: cs) = none := by
          rw [hst]; exact hm
        rw [replaceScanF_no_match fuel hm]
        rw [replaceScanF_no_match fuel hm2, ih r cs]
      | some pr =>
        obtain ⟨g, rest⟩ := pr
        cases hv : is_valid_uuid g with
        | false =>
          obtain ⟨ext, hst, _, _, _⟩ := replaceScanF_master fuel r rest
          have hm2 : matchSpanAt (replaceScanF r fuel rest).2.sep
              (replaceScanF r fuel rest).2.close_sep (c :: cs) = some (g, rest) := by
            rw [hst]; exact hm
          rw [replaceScanF_invalid fuel hm hv]
          rw [replaceScanF_invalid fuel hm2 hv, ih r rest, hst]
        | true =>
          cases hl : lookupA g r.uuid_mapping with
          | some repl =>
            obtain ⟨ext, hst, _, _, _⟩ := replaceScanF_master fuel r rest
            have hm2 : matchSpanAt (replaceScanF r fuel rest).2.sep
                (replaceScanF r fuel rest).2.close_sep (c :: cs) = some (g, rest) := by
              rw [hst]; exact hm
            have hl2 : lookupA g (replaceScanF r fuel rest).2.uuid_mapping
                = some repl := by
              rw [hst]; exact lookupA_append_some ext hl
            rw [replaceScanF_seen fuel hm hv hl]
            rw [replaceScanF_seen fuel hm2 hv hl2, ih r rest, hst]
          | none =>
            obtain ⟨ext, hst, _, _, _⟩ :=
              replaceScanF_master fuel (insertFresh r g) rest
            have hm2 : matchSpanAt (replaceScanF (insertFresh r g) fuel rest).2.sep
                (replaceScanF (insertFresh r g) fuel rest).2.close_sep (c :: cs)
                  = some (g, rest) := by
              rw [hst]; exact hm
            have hl2 : lookupA g
                (replaceScanF (insertFresh r g) fuel rest).2.uuid_mapping
                  = some (zfill (natDigits r.counter) r.nr_digits) := by
              rw [hst]
              show lookupA g ((insertFresh r g).uuid_mapping ++ ext) = _
              refine lookupA_append_some ext ?_
              show lookupA g (r.uuid_mapping
                ++ [(g, zfill (natDigits r.counter) r.nr_digits)]) = _
              rw [lookupA_append_none _ hl]
              simp [lookupA]
            rw [replaceScanF_fresh fuel hm hv hl]
            rw [replaceScanF_seen fuel hm2 hv hl2, ih (insertFresh r g) rest, hst]
            exact rfl

/-! Step equations for the restoring scan, and the rendering lemma that
describes `restore_output` on a text built from placeholder spans. -/

theorem restoreScanF_nil (sep close : Char) (n : Nat) (revm : Mapping)
    (fuel : Nat) : restoreScanF sep close n revm fuel [] = [] := by
  cases fuel <;> rfl

theorem restoreScanF_no_match {sep close : Char} {n : Nat} {revm : Mapping}
    {c : Char} {cs : List Char} (fuel : Nat)
    (hm : matchDigitsAt sep close n (c :: cs) = none) :
    restoreScanF sep close n revm (fuel + 1) (c :: cs)
      = c :: restoreScanF sep close n revm fuel cs := by
  simp [restoreScanF, hm]

theorem restoreScanF_found {sep close : Char} {n : Nat} {revm : Mapping}
    {c : Char} {cs d rest u : List Char} (fuel : Nat)
    (hm : matchDigitsAt sep close n (c :: cs) = some (d, rest))
    (hl : lookupA d revm = some u) :
    restoreScanF sep close n revm (fuel + 1) (c :: cs)
      = sep :: (u ++ close :: restoreScanF sep close n revm fuel rest) := by
  simp [restoreScanF, hm, hl]

theorem restoreScanF_unmapped {sep close : Char} {n : Nat} {revm : Mapping}
    {c : Char} {cs d rest : List Char} (fuel : Nat)
    (hm : matchDigitsAt sep close n (c :: cs) = some (d, rest))
    (hl : lookupA d revm = none) :
    restoreScanF sep close n revm (fuel + 1) (c :: cs)
      = sep :: (d ++ close :: restoreScanF sep close n revm fuel rest) := by
  simp [restoreScanF, hm, hl]

theorem render_plain (sep close : Char) (c : Char) (ps : List Piece) :
    render sep close (Piece.plain c :: ps) = c :: render sep close ps := rfl

theorem render_ph (sep close : Char) (d : List Char) (ps : List Piece) :
    render sep close (Piece.ph d :: ps)
      = sep :: (d ++ close :: render sep close ps) := by
  simp [render, renderPiece]

theorem wfPieces_plain {sep close : Char} {n : Nat} {c : Char} {ps : List Piece}
    (h : wfPieces sep close n (Piece.plain c :: ps) = true) :
    matchDigitsAt sep close n (c :: render sep close ps) = none
      ∧ wfPieces sep close n ps = true := by
  simp only [wfPieces, Bool.and_eq_true] at h
  refine ⟨?_, h.2⟩
  cases hm : matchDigitsAt sep close n (c :: render sep close ps) with
  | none => rfl
  | some pr =>
    rw [hm] at h
    simp at h

theorem wfPieces_ph {sep close : Char} {n : Nat} {d : List Char} {ps : List Piece}
    (h : wfPieces sep close n (Piece.ph d :: ps) = true) :
    d.length = n ∧ d.all isDecChar = true ∧ wfPieces sep close n ps = true := by
  simp only [wfPieces, Bool.and_eq_true, beq_iff_eq] at h
  exact ⟨h.1.1, h.1.2, h.2⟩

theorem restoreScanF_render {sep close : Char} {n : Nat} {revm : Mapping}
    {ps : List Piece} :
    ∀ {fuel : Nat}, (render sep close ps).length ≤ fuel →
      wfPieces sep close n ps = true →
      restoreScanF sep close n revm fuel (render sep close ps)
        = render sep close (ps.map (restorePiece revm)) := by
  induction ps with
  | nil => intro fuel _ _; exact restoreScanF_nil sep close n revm fuel
  | cons p ps ih =>
    intro fuel hf hwf
    cases p with
    | plain c =>
      obtain ⟨hnm, hwf'⟩ := wfPieces_plain hwf
      cases fuel with
      | zero =>
        rw [render_plain] at hf
        simp at hf
      | succ fuel =>
        rw [render_plain] at hf ⊢
        rw [restoreScanF_no_match fuel hnm]
        simp only [List.map_cons, restorePiece]
        rw [render_plain]
        refine congrArg (List.cons c) ?_
        refine ih ?_ hwf'
        simp only [List.length_cons] at hf
        omega
    | ph d =>
      obtain ⟨hlen, hall, hwf'⟩ := wfPieces_ph hwf
      cases fuel with
      | zero =>
        rw [render_ph] at hf
        simp at hf
      | succ fuel =>
        rw [render_ph] at hf ⊢
        have hfx : (render sep close ps).length ≤ fuel := by
          simp only [List.length_cons, List.length_append] at hf
          omega
        have hmatch :=
          matchDigitsAt_exact sep close (render sep close ps) hlen hall
        cases hl : lookupA d revm with
        | some u =>
          rw [restoreScanF_found fuel hmatch hl, ih hfx hwf']
          simp only [List.map_cons, restorePiece, hl, Option.getD_some]
          rw [render_ph]
        | none =>
          rw [restoreScanF_unmapped fuel hmatch hl, ih hfx hwf']
          simp only [List.map_cons, restorePiece, hl, Option.getD_none]
          rw [render_ph]

theorem restore_output_render {sep : Char} {n : Nat} {m : Mapping}
    {ps : List Piece} (hwf : wfPieces sep (closeSepFor sep) n ps = true) :
    restore_output (render sep (closeSepFor sep) ps) m sep n
      = render sep (closeSepFor sep) (ps.map (restorePiece (buildReverse m))) := by
  unfold restore_output
  exact restoreScanF_render (Nat.le_refl _) hwf

/-! Lemmas about iterated replacement and the batch loop. -/

theorem replaceAll_inv {r : UUIDReplacer} (ts : List (List Char))
    (h : mappingInv r) : mappingInv (replaceAll r ts) := by
  induction ts generalizing r with
  | nil => exact h
  | cons t ts ih =>
    exact ih (replaceScanF_inv t.length t h)

theorem replaceAll_extends (ts : List (List Char)) :
    ∀ r : UUIDReplacer, ∃ ext : Mapping,
      (replaceAll r ts).uuid_mapping = r.uuid_mapping ++ ext := by
  induction ts with
  | nil => intro r; exact ⟨[], by simp [replaceAll]⟩
  | cons t ts ih =>
    intro r
    obtain ⟨ext1, h1, _, _, _⟩ := replaceScanF_master t.length r t
    obtain ⟨ext2, h2⟩ := ih (r.replace_uuids t).2
    refine ⟨ext1 ++ ext2, ?_⟩
    show (replaceAll (r.replace_uuids t).2 ts).uuid_mapping = _
    rw [h2]
    show (replaceScanF r t.length t).2.uuid_mapping ++ ext2 = _
    rw [h1, List.append_assoc]

theorem replaceAll_append (ts1 ts2 : List (List Char)) :
    ∀ r : UUIDReplacer,
      replaceAll r (ts1 ++ ts2) = replaceAll (replaceAll r ts1) ts2 := by
  induction ts1 with
  | nil => intro r; rfl
  | cons t ts ih => intro r; exact ih (r.replace_uuids t).2

theorem mappingInv_snd_nodup {r : UUIDReplacer} (h : mappingInv r) :
    (r.uuid_mapping.map Prod.snd).Nodup := by
  rw [h.1]
  refine List.Nodup.map ?_ (List.nodup_range _)
  intro a b hab
  exact zfill_natDigits_inj hab

theorem snd_nodup_distinct {m : Mapping} (hnd : (m.map Prod.snd).Nodup)
    {k1 v1 k2 v2 : List Char} (h1 : (k1, v1) ∈ m) (h2 : (k2, v2) ∈ m)
    (hk : k1 ≠ k2) : v1 ≠ v2 := by
  intro hv
  subst hv
  induction m with
  | nil => simp at h1
  | cons p m ih =>
    simp only [List.map_cons, List.nodup_cons] at hnd
    rcases List.mem_cons.mp h1 with e1 | e1 <;>
      rcases List.mem_cons.mp h2 with e2 | e2
    · rw [← e2] at e1
      simp only [Prod.mk.injEq] at e1
      exact hk e1.1
    · apply hnd.1
      rw [← e1]
      show v1 ∈ List.map Prod.snd m
      exact List.mem_map_of_mem Prod.snd e2
    · apply hnd.1
      rw [← e2]
      show v1 ∈ List.map Prod.snd m
      exact List.mem_map_of_mem Prod.snd e1
    · exact ih hnd.2 e1 e2

theorem stringContents_cons_str {m : Message} {s : List Char}
    (hc : m.content = some (PyVal.str s)) (msgs : List Message) :
    stringContents (m :: msgs) = s :: stringContents msgs := by
  simp [stringContents, List.filterMap_cons, hc]

theorem stringContents_cons_other {m : Message}
    (hc : ∀ s : List Char, m.content ≠ some (PyVal.str s)) (msgs : List Message) :
    stringContents (m :: msgs) = stringContents msgs := by
  cases hm : m.content with
  | none => simp [stringContents, List.filterMap_cons, hm]
  | some v =>
    cases v with
    | str s => exact absurd hm (hc s)
    | other tag => simp [stringContents, List.filterMap_cons, hm]

theorem processLoop_thread (msgs : List Message) :
    ∀ (r : UUIDReplacer) (allm : Mapping),
      (processLoop r allm msgs).2.2 = replaceAll r (stringContents msgs)
      ∧ (processLoop r allm msgs).1.length = msgs.length := by
  induction msgs with
  | nil => intro r allm; exact ⟨rfl, rfl⟩
  | cons m msgs ih =>
    intro r allm
    cases hc : m.content with
    | some v =>
      cases v with
      | str s =>
        rw [stringContents_cons_str hc]
        have hstep : processLoop r allm (m :: msgs)
            = ((({ m with content := some (PyVal.str (r.replace_uuids s).1.1) })
                :: (processLoop (r.replace_uuids s).2
                      (dictUpdate allm (r.replace_uuids s).1.2) msgs).1),
               (processLoop (r.replace_uuids s).2
                  (dictUpdate allm (r.replace_uuids s).1.2) msgs).2.1,
               (processLoop (r.replace_uuids s).2
                  (dictUpdate allm (r.replace_uuids s).1.2) msgs).2.2) := by
          simp [processLoop, hc]
        rw [hstep]
        refine ⟨(ih _ _).1, ?_⟩
        simp [(ih _ _).2]
      | other tag =>
        have hstep : processLoop r allm (m :: msgs)
            = (m :: (processLoop r allm msgs).1,
               (processLoop r allm msgs).2.1, (processLoop r allm msgs).2.2) := by
          simp [processLoop, hc]
        rw [hstep, stringContents_cons_other (by simp [hc])]
        refine ⟨(ih _ _).1, ?_⟩
        simp [(ih _ _).2]
    | none =>
      have hstep : processLoop r allm (m :: msgs)
          = (m :: (processLoop r allm msgs).1,
             (processLoop r allm msgs).2.1, (processLoop r allm msgs).2.2) := by
        simp [processLoop, hc]
      rw [hstep, stringContents_cons_other (by simp [hc])]
      refine ⟨(ih _ _).1, ?_⟩
      simp [(ih _ _).2]

theorem processLoop_allm (msgs : List Message) :
    ∀ (r : UUIDReplacer), mappingInv r →
      (processLoop r r.uuid_mapping msgs).2.1
        = (processLoop r r.uuid_mapping msgs).2.2.uuid_mapping := by
  induction msgs with
  | nil => intro r _; rfl
  | cons m msgs ih =>
    intro r hinv
    cases hc : m.content with
    | some v =>
      cases v with
      | str s =>
        have hstep : ∀ a : Mapping, processLoop r a (m :: msgs)
            = (({ m with content := some (PyVal.str (r.replace_uuids s).1.1) })
                :: (processLoop (r.replace_uuids s).2
                      (dictUpdate a (r.replace_uuids s).1.2) msgs).1,
               (processLoop (r.replace_uuids s).2
                  (dictUpdate a (r.replace_uuids s).1.2) msgs).2.1,
               (processLoop (r.replace_uuids s).2
                  (dictUpdate a (r.replace_uuids s).1.2) msgs).2.2) := by
          intro a
          simp [processLoop, hc]
        rw [hstep]
        have hinv' : mappingInv (r.replace_uuids s).2 :=
          replaceScanF_inv s.length s hinv
        obtain ⟨ext, h1, _, _, _⟩ := replaceScanF_master s.length r s
        have hsnap : (r.replace_uuids s).1.2 = (r.replace_uuids s).2.uuid_mapping := rfl
        have hext : (r.replace_uuids s).2.uuid_mapping = r.uuid_mapping ++ ext := by
          show (replaceScanF r s.length s).2.uuid_mapping = _
          rw [h1]
        have hup : dictUpdate r.uuid_mapping (r.replace_uuids s).1.2
            = (r.replace_uuids s).2.uuid_mapping := by
          rw [hsnap, hext]
          exact dictUpdate_extend (hext ▸ hinv'.2)
        rw [hup]
        exact ih (r.replace_uuids s).2 hinv'
      | other tag =>
        have hstep : processLoop r r.uuid_mapping (m :: msgs)
            = (m :: (processLoop r r.uuid_mapping msgs).1,
               (processLoop r r.uuid_mapping msgs).2.1,
               (processLoop r r.uuid_mapping msgs).2.2) := by
          simp [processLoop, hc]
        rw [hstep]
        exact ih r hinv
    | none =>
      have hstep : processLoop r r.uuid_mapping (m :: msgs)
          = (m :: (processLoop r r.uuid_mapping msgs).1,
             (processLoop r r.uuid_mapping msgs).2.1,
             (processLoop r r.uuid_mapping msgs).2.2) := by
        simp [processLoop, hc]
      rw [hstep]
      exact ih r hinv

theorem processLoop_frame (msgs : List Message) :
    ∀ (r : UUIDReplacer) (allm : Mapping) (i : Nat), i < msgs.length →
      ((processLoop r allm msgs).1.getD i default).rest
          = (msgs.getD i default).rest
      ∧ ((msgs.getD i default).content = none →
          ((processLoop r allm msgs).1.getD i default).content = none)
      ∧ (∀ v : PyVal, (∀ s : List Char, v ≠ PyVal.str s) →
          (msgs.getD i default).content = some v →
          ((processLoop r allm msgs).1.getD i default).content = some v)
      ∧ (∀ s : List Char, (msgs.getD i default).content = some (PyVal.str s) →
          ((processLoop r allm msgs).1.getD i default).content
            = some (PyVal.str
                ((replaceAll r (stringContents (msgs.take i))).replace_uuids s).1.1)) := by
  induction msgs with
  | nil => intro r allm i hi; simp at hi
  | cons m msgs ih =>
    intro r allm i hi
    cases hc : m.content with
    | some v =>
      cases v with
      | str s =>
        have hstep : processLoop r allm (m :: msgs)
            = (({ m with content := some (PyVal.str (r.replace_uuids s).1.1) })
                :: (processLoop (r.replace_uuids s).2
                      (dictUpdate allm (r.replace_uuids s).1.2) msgs).1,
               (processLoop (r.replace_uuids s).2
                  (dictUpdate allm (r.replace_uuids s).1.2) msgs).2.1,
               (processLoop (r.replace_uuids s).2
                  (dictUpdate allm (r.replace_uuids s).1.2) msgs).2.2) := by
          simp [processLoop, hc]
        rw [hstep]
        cases i with
        | zero =>
          refine ⟨rfl, ?_, ?_, ?_⟩
          · intro hnone
            simp only [List.getD_cons_zero] at hnone
            rw [hc] at hnone
            exact absurd hnone (by simp)
          · intro v hv hsome
            simp only [List.getD_cons_zero] at hsome
            rw [hc] at hsome
            simp only [Option.some.injEq] at hsome
            exact absurd hsome.symm (hv s)
          · intro s' hs'
            simp only [List.getD_cons_zero] at hs' ⊢
            rw [hc] at hs'
            simp only [Option.some.injEq, PyVal.str.injEq] at hs'
            subst hs'
            rfl
        | succ i =>
          have hi' : i < msgs.length := by
            simp only [List.length_cons] at hi
            omega
          have hrec := ih (r.replace_uuids s).2
            (dictUpdate allm (r.replace_uuids s).1.2) i hi'
          refine ⟨?_, ?_, ?_, ?_⟩
          · simp only [List.getD_cons_succ]
            exact hrec.1
          · simp only [List.getD_cons_succ]
            exact hrec.2.1
          · simp only [List.getD_cons_succ]
            exact hrec.2.2.1
          · intro s' hs'
            simp only [List.getD_cons_succ] at hs' ⊢
            rw [List.take_succ_cons, stringContents_cons_str hc]
            exact hrec.2.2.2 s' hs'
      | other tag =>
        have hstep : processLoop r allm (m :: msgs)
            = (m :: (processLoop r allm msgs).1,
               (processLoop r allm msgs).2.1, (processLoop r allm msgs).2.2) := by
          simp [processLoop, hc]
        rw [hstep]
        cases i with
        | zero =>
          refine ⟨rfl, ?_, ?_, ?_⟩
          · intro hnone
            simpa using hnone
          · intro v _ hsome
            simpa using hsome
          · intro s' hs'
            simp only [List.getD_cons_zero] at hs'
            rw [hc] at hs'
            simp at hs'
        | succ i =>
          have hi' : i < msgs.length := by
            simp only [List.length_cons] at hi
            omega
          have hrec := ih r allm i hi'
          refine ⟨?_, ?_, ?_, ?_⟩
          · simp only [List.getD_cons_succ]
            exact hrec.1
          · simp only [List.getD_cons_succ]
            exact hrec.2.1
          · simp only [List.getD_cons_succ]
            exact hrec.2.2.1
          · intro s' hs'
            simp only [List.getD_cons_succ] at hs' ⊢
            rw [List.take_succ_cons, stringContents_cons_other (by simp [hc])]
            exact hrec.2.2.2 s' hs'
    | none =>
      have hstep : processLoop r allm (m :: msgs)
          = (m :: (processLoop r allm msgs).1,
             (processLoop r allm msgs).2.1, (processLoop r allm msgs).2.2) := by
        simp [processLoop, hc]
      rw [hstep]
      cases i with
      | zero =>
        refine ⟨rfl, ?_, ?_, ?_⟩
        · intro hnone
          simpa using hnone
        · intro v _ hsome
          simpa using hsome
        · intro s' hs'
          simp only [List.getD_cons_zero] at hs'
          rw [hc] at hs'
          simp at hs'
      | succ i =>
        have hi' : i < msgs.length := by
          simp only [List.length_cons] at hi
          omega
        have hrec := ih r allm i hi'
        refine ⟨?_, ?_, ?_, ?_⟩
        · simp only [List.getD_cons_succ]
          exact hrec.1
        · simp only [List.getD_cons_succ]
          exact hrec.2.1
        · simp only [List.getD_cons_succ]
          exact hrec.2.2.1
        · intro s' hs'
          simp only [List.getD_cons_succ] at hs' ⊢
          rw [List.take_succ_cons, stringContents_cons_other (by simp [hc])]
          exact hrec.2.2.2 s' hs'

/-! Frame lemma for the heap model of the batch loop. -/

theorem getD_append_left {l l' : List Message} {i : Nat} (h : i < l.length) :
    (l ++ l').getD i default = l.getD i default := by
  rw [List.getD_eq_getElem?_getD, List.getD_eq_getElem?_getD,
    List.getElem?_append_left h]

theorem getD_set_ne {l : List Message} {i j : Nat} {a : Message} (h : j ≠ i) :
    (l.set j a).getD i default = l.getD i default := by
  rw [List.getD_eq_getElem?_getD, List.getD_eq_getElem?_getD,
    List.getElem?_set_ne h]

theorem processLoopHeap_frame (refs : List Nat) :
    ∀ (r : UUIDReplacer) (allm : Mapping) (h : Heap) (i : Nat),
      i < h.objs.length →
      (processLoopHeap r allm h refs).1.objs.getD i default
        = h.objs.getD i default := by
  induction refs with
  | nil => intro r allm h i _; rfl
  | cons ref more ih =>
    intro r allm h i hi
    cases hc : (heapGet h ref).content with
    | some v =>
      cases v with
      | str s =>
        have hstep : (processLoopHeap r allm h (ref :: more)).1
            = (processLoopHeap ((r.replace_uuids s).2)
                (dictUpdate allm ((r.replace_uuids s).1.2))
                (heapSet (heapAlloc h (heapGet h ref)).1 (heapAlloc h (heapGet h ref)).2
                  { heapGet h ref with content := some (PyVal.str ((r.replace_uuids s).1.1)) })
                more).1 := by
          simp only [processLoopHeap, hc]
        rw [hstep]
        have hlen : i < ((heapSet (heapAlloc h (heapGet h ref)).1
            (heapAlloc h (heapGet h ref)).2
            { heapGet h ref with
              content := some (PyVal.str ((r.replace_uuids s).1.1)) }).objs).length := by
          simp [heapSet, heapAlloc]
          omega
        rw [ih _ _ _ i hlen]
        show ((h.objs ++ [heapGet h ref]).set h.objs.length _).getD i default = _
        rw [getD_set_ne (by omega), getD_append_left hi]
      | other tag =>
        have hstep : (processLoopHeap r allm h (ref :: more)).1
            = (processLoopHeap r allm (heapAlloc h (heapGet h ref)).1 more).1 := by
          simp only [processLoopHeap, hc]
        rw [hstep]
        have hlen : i < ((heapAlloc h (heapGet h ref)).1.objs).length := by
          simp [heapAlloc]
          omega
        rw [ih _ _ _ i hlen]
        show (h.objs ++ [heapGet h ref]).getD i default = _
        rw [getD_append_left hi]
    | none =>
      have hstep : (processLoopHeap r allm h (ref :: more)).1
          = (processLoopHeap r allm (heapAlloc h (heapGet h ref)).1 more).1 := by
        simp only [processLoopHeap, hc]
      rw [hstep]
      have hlen : i < ((heapAlloc h (heapGet h ref)).1.objs).length := by
        simp [heapAlloc]
        omega
      rw [ih _ _ _ i hlen]
      show (h.objs ++ [heapGet h ref]).getD i default = _
      rw [getD_append_left hi]

/-! Remaining auxiliary lemmas used by the claim theorems. -/

theorem replaceScanF_no_span {r : UUIDReplacer} :
    ∀ (fuel : Nat) (t : List Char), hasUUIDSpan r.sep r.close_sep t = false →
      replaceScanF r fuel t = (t, r) := by
  intro fuel
  induction fuel with
  | zero =>
    intro t _
    cases t with
    | nil => rfl
    | cons c cs => rfl
  | succ fuel ih =>
    intro t h
    cases t with
    | nil => exact replaceScanF_nil r (fuel + 1)
    | cons c cs =>
      rw [hasUUIDSpan] at h
      cases hmm : matchSpanAt r.sep r.close_sep (c :: cs) with
      | some pr => rw [hmm] at h; simp at h
      | none =>
        rw [hmm] at h
        simp only [Option.isSome_none, Bool.false_or] at h
        rw [replaceScanF_no_match fuel hmm, ih cs h]

theorem replaceAll_config (ts : List (List Char)) :
    ∀ r : UUIDReplacer, (replaceAll r ts).sep = r.sep
      ∧ (replaceAll r ts).close_sep = r.close_sep
      ∧ (replaceAll r ts).nr_digits = r.nr_digits := by
  induction ts with
  | nil => intro r; exact ⟨rfl, rfl, rfl⟩
  | cons t ts ih =>
    intro r
    obtain ⟨ext, h1, _, _, _⟩ := replaceScanF_master t.length r t
    have hsep : (r.replace_uuids t).2.sep = r.sep := by
      show (replaceScanF r t.length t).2.sep = r.sep
      rw [h1]
    have hclose : (r.replace_uuids t).2.close_sep = r.close_sep := by
      show (replaceScanF r t.length t).2.close_sep = r.close_sep
      rw [h1]
    have hnr : (r.replace_uuids t).2.nr_digits = r.nr_digits := by
      show (replaceScanF r t.length t).2.nr_digits = r.nr_digits
      rw [h1]
    have step := ih (r.replace_uuids t).2
    exact ⟨step.1.trans hsep, step.2.1.trans hclose, step.2.2.trans hnr⟩

/-! The claim theorems. -/

/-- C3: for every replacer state `S` and every text `T`, calling
`replace_uuids(T)` twice in succession from `S` yields the same output
string both times, returns the same mapping snapshot, and the second call
leaves the whole state (mapping and counter included) exactly as it was
after the first call. -/
theorem C3_replace_deterministic (r : UUIDReplacer) (t : List Char) :
    ((r.replace_uuids t).2.replace_uuids t).1.1 = (r.replace_uuids t).1.1
    ∧ ((r.replace_uuids t).2.replace_uuids t).1.2 = (r.replace_uuids t).1.2
    ∧ ((r.replace_uuids t).2.replace_uuids t).2 = (r.replace_uuids t).2 := by
  have hst := replaceScanF_stable t.length r t
  refine ⟨?_, ?_, ?_⟩ <;> simp only [UUIDReplacer.replace_uuids, hst]

/-- C4: a text containing no substring of the form `sep` + 8-4-4-4-12
hex-digit UUID shape + `close_sep` is returned unchanged by a replace on a
fresh replacer, and the returned mapping is empty. -/
theorem C4_passthrough (sep : Char) (w : Nat) (t : List Char)
    (h : hasUUIDSpan sep (closeSepFor sep) t = false) :
    clean_prompt t sep w = (t, []) := by
  have h' : hasUUIDSpan (UUIDReplacer.init sep w).sep
      (UUIDReplacer.init sep w).close_sep t = false := h
  unfold clean_prompt UUIDReplacer.replace_uuids
  rw [replaceScanF_no_span t.length t h']
  rfl

/-- C4 witness: the concrete no-UUID text of the spec's scenario 6 passes
through unchanged with an empty mapping. -/
theorem C4_passthrough_witness :
    hasUUIDSpan '[' (closeSepFor '[') "Hello [not-a-uuid] world".toList = false
    ∧ clean_prompt "Hello [not-a-uuid] world".toList '[' 2
        = ("Hello [not-a-uuid] world".toList, []) :=
  ⟨by decide, C4_passthrough '[' 2 "Hello [not-a-uuid] world".toList (by decide)⟩

/-- C2: after any sequence of `replace_uuids` calls on one fresh instance,
distinct identifiers carry distinct placeholders; the mapping's values are,
in first-seen order, exactly the zero-padded counter values
`str(0).zfill(nr_digits), str(1).zfill(nr_digits), ...`; and one further
call only appends entries for identifiers that were not yet mapped — a
re-encountered identifier keeps its existing binding and adds no entry. -/
theorem C2_monotonic_distinct (sep : Char) (w : Nat) (ts : List (List Char))
    (t : List Char) :
    (∀ k1 v1 k2 v2 : List Char,
        (k1, v1) ∈ (replaceAll (UUIDReplacer.init sep w) ts).uuid_mapping →
        (k2, v2) ∈ (replaceAll (UUIDReplacer.init sep w) ts).uuid_mapping →
        k1 ≠ k2 → v1 ≠ v2)
    ∧ (replaceAll (UUIDReplacer.init sep w) ts).uuid_mapping.map Prod.snd
        = (List.range (replaceAll (UUIDReplacer.init sep w) ts).counter).map
            (fun i => zfill (natDigits i) w)
    ∧ (∃ ext : Mapping,
        ((replaceAll (UUIDReplacer.init sep w) ts).replace_uuids t).2.uuid_mapping
          = (replaceAll (UUIDReplacer.init sep w) ts).uuid_mapping ++ ext
        ∧ ∀ p ∈ ext,
            lookupA p.1 (replaceAll (UUIDReplacer.init sep w) ts).uuid_mapping
              = none)
    ∧ (∀ k v : List Char,
        lookupA k (replaceAll (UUIDReplacer.init sep w) ts).uuid_mapping = some v →
        lookupA k ((replaceAll (UUIDReplacer.init sep w) ts).replace_uuids t).2.uuid_mapping
          = some v) := by
  have hinv : mappingInv (replaceAll (UUIDReplacer.init sep w) ts) :=
    replaceAll_inv ts (mappingInv_init sep w)
  have hw : (replaceAll (UUIDReplacer.init sep w) ts).nr_digits = w :=
    (replaceAll_config ts (UUIDReplacer.init sep w)).2.2
  obtain ⟨ext, h1, _, h3, _⟩ :=
    replaceScanF_master t.length (replaceAll (UUIDReplacer.init sep w) ts) t
  have hext : ((replaceAll (UUIDReplacer.init sep w) ts).replace_uuids t).2.uuid_mapping
      = (replaceAll (UUIDReplacer.init sep w) ts).uuid_mapping ++ ext := by
    show (replaceScanF (replaceAll (UUIDReplacer.init sep w) ts) t.length t).2.uuid_mapping
      = _
    rw [h1]
  refine ⟨?_, ?_, ⟨ext, hext, h3⟩, ?_⟩
  · intro k1 v1 k2 v2 hm1 hm2 hk
    exact snd_nodup_distinct (mappingInv_snd_nodup hinv) hm1 hm2 hk
  · rw [hinv.1, hw]
  · intro k v hl
    rw [hext]
    exact lookupA_append_some ext hl

/-- C2 witness: one call on a fresh instance over a text holding two
distinct identifiers, then a further call repeating the first identifier:
the two placeholders differ and the mapping values are the canonical
sequence. -/
theorem C2_monotonic_distinct_witness :
    "00".toList ≠ "01".toList
    ∧ (replaceAll (UUIDReplacer.init '[' 2)
          [("[550e8400-e29b-41d4-a716-446655440000][6ba7b810-9dad-11d1-80b4-00c04fd430c8]".toList)]).uuid_mapping.map
          Prod.snd
        = (List.range (replaceAll (UUIDReplacer.init '[' 2)
            [("[550e8400-e29b-41d4-a716-446655440000][6ba7b810-9dad-11d1-80b4-00c04fd430c8]".toList)]).counter).map
            (fun i => zfill (natDigits i) 2) := by
  constructor
  · have := (C2_monotonic_distinct '[' 2
        [("[550e8400-e29b-41d4-a716-446655440000][6ba7b810-9dad-11d1-80b4-00c04fd430c8]".toList)]
        "[550e8400-e29b-41d4-a716-446655440000]".toList).1
      ("550e8400-e29b-41d4-a716-446655440000".toList) "00".toList
      ("6ba7b810-9dad-11d1-80b4-00c04fd430c8".toList) "01".toList
      (by decide) (by decide) (by decide)
    exact this
  · exact (C2_monotonic_distinct '[' 2
      [("[550e8400-e29b-41d4-a716-446655440000][6ba7b810-9dad-11d1-80b4-00c04fd430c8]".toList)]
      "[550e8400-e29b-41d4-a716-446655440000]".toList).2.1

/-- C9: placeholder generation never truncates: `_generate_replacement`
emits the decimal representation of the counter left-padded with zeros to
width `nr_digits` and advances the counter; the counter-to-placeholder
function is injective for every width; and once the counter reaches
`10 ^ nr_digits` the emitted placeholder is strictly longer than
`nr_digits` characters — the field widens instead of truncating. -/
theorem C9_no_truncation (r : UUIDReplacer) :
    r.generate_replacement.1
        = List.replicate (r.nr_digits - (natDigits r.counter).length) '0'
            ++ natDigits r.counter
    ∧ r.generate_replacement.2 = { r with counter := r.counter + 1 }
    ∧ (∀ n1 n2 : Nat, n1 ≠ n2 →
        zfill (natDigits n1) r.nr_digits ≠ zfill (natDigits n2) r.nr_digits)
    ∧ (10 ^ r.nr_digits ≤ r.counter →
        r.nr_digits < r.generate_replacement.1.length) := by
  refine ⟨rfl, rfl, ?_, ?_⟩
  · intro n1 n2 hne heq
    exact hne (zfill_natDigits_inj heq)
  · intro hge
    exact zfill_natDigits_length_gt hge

/-- C9 witness: at width 2, the placeholders of counters 5 and 7 differ, and
the placeholder of counter 100 is 3 characters long — wider than the field,
not truncated. -/
theorem C9_no_truncation_witness :
    zfill (natDigits 5) 2 ≠ zfill (natDigits 7) 2
    ∧ (2 : Nat) < (UUIDReplacer.mk '[' ']' 2 [] 100).generate_replacement.1.length :=
  ⟨(C9_no_truncation (UUIDReplacer.mk '[' ']' 2 [] 100)).2.2.1 5 7 (by decide),
   (C9_no_truncation (UUIDReplacer.mk '[' ']' 2 [] 100)).2.2.2 (by decide)⟩

/-- C5: `restore_output` is a total function of its explicit inputs alone
(no replacer state appears in its signature); on a text built from plain
characters and `nr_digits`-wide delimited digit spans it rewrites exactly
the spans — a span whose digits are a key of the reverse mapping becomes
`sep` + the stored identifier + `close_sep`, a span whose digits are not a
value of the mapping stays verbatim — and every plain character is
unchanged; the reverse lookup is sound: a hit returns an identifier the
mapping sends to those digits, every mapping value hits, and only mapping
values hit. -/
theorem C5_restore_behaviour (m : Mapping) (sep : Char) (n : Nat)
    (ps : List Piece) (hwf : wfPieces sep (closeSepFor sep) n ps = true) :
    restore_output (render sep (closeSepFor sep) ps) m sep n
        = render sep (closeSepFor sep) (ps.map (restorePiece (buildReverse m)))
    ∧ (∀ d k : List Char, lookupA d (buildReverse m) = some k → (k, d) ∈ m)
    ∧ (∀ d : List Char, d ∈ m.map Prod.snd →
        (lookupA d (buildReverse m)).isSome = true)
    ∧ (∀ d : List Char, d ∉ m.map Prod.snd →
        lookupA d (buildReverse m) = none) :=
  ⟨restore_output_render hwf, fun _ _ h => buildReverse_mem h,
    fun _ h => buildReverse_isSome h, fun d h => (buildReverse_none_iff m d).mpr h⟩

/-- C5 witness: the spec's scenarios 4 and 5 in one text — the mapped span
`[00]` is restored to its identifier, the unmapped span `[99]` and all the
plain characters stay verbatim. -/
theorem C5_restore_behaviour_witness :
    restore_output
        (render '[' (closeSepFor '[')
          [Piece.plain 'R', Piece.plain ' ', Piece.ph "00".toList,
           Piece.plain ' ', Piece.ph "99".toList])
        [("550e8400-e29b-41d4-a716-446655440000".toList, "00".toList)] '[' 2
      = render '[' (closeSepFor '[')
          ([Piece.plain 'R', Piece.plain ' ', Piece.ph "00".toList,
            Piece.plain ' ', Piece.ph "99".toList].map
            (restorePiece (buildReverse
              [("550e8400-e29b-41d4-a716-446655440000".toList, "00".toList)])))
    ∧ restore_output "R [00] [99]".toList
        [("550e8400-e29b-41d4-a716-446655440000".toList, "00".toList)] '[' 2
      = "R [550e8400-e29b-41d4-a716-446655440000] [99]".toList :=
  ⟨(C5_restore_behaviour
      [("550e8400-e29b-41d4-a716-446655440000".toList, "00".toList)] '[' 2
      [Piece.plain 'R', Piece.plain ' ', Piece.ph "00".toList,
       Piece.plain ' ', Piece.ph "99".toList] (by decide)).1,
   by decide⟩

/-- C1: round trip.  Let `(C, M) = clean_prompt T`.  For any text built with
the same delimiters out of plain characters (none of which begins a
placeholder span) and delimited placeholders all of which are values of `M`,
`restore_output` replaces every placeholder span by `sep` + its original
identifier + `close_sep` — the unique identifier that `M` maps to that
placeholder — and leaves every other character position unchanged. -/
theorem C1_round_trip (T : List Char) (sep : Char) (w : Nat) (ps : List Piece)
    (hwf : wfPieces sep (closeSepFor sep) w ps = true)
    (hvals : phValuesIn ps (clean_prompt T sep w).2 = true) :
    restore_output (render sep (closeSepFor sep) ps) (clean_prompt T sep w).2 sep w
        = render sep (closeSepFor sep)
            (ps.map (restorePiece (buildReverse (clean_prompt T sep w).2)))
    ∧ (∀ d k : List Char, Piece.ph d ∈ ps → (k, d) ∈ (clean_prompt T sep w).2 →
        lookupA d (buildReverse (clean_prompt T sep w).2) = some k)
    ∧ (∀ d : List Char, Piece.ph d ∈ ps →
        ∃ k : List Char,
          lookupA d (buildReverse (clean_prompt T sep w).2) = some k
          ∧ (k, d) ∈ (clean_prompt T sep w).2) := by
  have hinv : mappingInv (replaceScanF (UUIDReplacer.init sep w) T.length T).2 :=
    replaceScanF_inv T.length T (mappingInv_init sep w)
  have hnd : ((clean_prompt T sep w).2.map Prod.snd).Nodup := by
    show ((replaceScanF (UUIDReplacer.init sep w) T.length T).2.uuid_mapping.map
      Prod.snd).Nodup
    exact mappingInv_snd_nodup hinv
  have hvals' : ∀ d : List Char, Piece.ph d ∈ ps →
      ∃ k : List Char, (k, d) ∈ (clean_prompt T sep w).2 := by
    intro d hd
    have hall := List.all_eq_true.mp hvals _ hd
    dsimp only at hall
    obtain ⟨q, hq, hqe⟩ := List.any_eq_true.mp hall
    obtain ⟨k, v⟩ := q
    have hv : v = d := by simpa using hqe
    subst hv
    exact ⟨k, hq⟩
  refine ⟨restore_output_render hwf, ?_, ?_⟩
  · intro d k _ hm
    exact buildReverse_unique hnd hm
  · intro d hd
    obtain ⟨k, hk⟩ := hvals' d hd
    exact ⟨k, buildReverse_unique hnd hk, hk⟩

/-- C1 witness: clean a prompt holding two identifiers, build a downstream
reply from plain characters and the two placeholders in swapped order, and
restore: both spans come back as their original identifiers and the plain
characters are untouched. -/
theorem C1_round_trip_witness :
    restore_output
        (render '[' (closeSepFor '[')
          [Piece.plain 'A', Piece.ph "01".toList, Piece.plain ' ',
           Piece.ph "00".toList])
        (clean_prompt
          "[550e8400-e29b-41d4-a716-446655440000][6ba7b810-9dad-11d1-80b4-00c04fd430c8]".toList
          '[' 2).2 '[' 2
      = "A[6ba7b810-9dad-11d1-80b4-00c04fd430c8] [550e8400-e29b-41d4-a716-446655440000]".toList := by
  have h := (C1_round_trip
    "[550e8400-e29b-41d4-a716-446655440000][6ba7b810-9dad-11d1-80b4-00c04fd430c8]".toList
    '[' 2
    [Piece.plain 'A', Piece.ph "01".toList, Piece.plain ' ', Piece.ph "00".toList]
    (by decide) (by decide)).1
  rw [h]
  decide

/-- C6 counterexample: the constructor performs no configuration check.  At
`nr_digits = 0` — a width the spec's error-handling section says must be
rejected at construction time with a configuration error — construction
succeeds with the ordinary initial state, and the engine runs, emitting the
unpadded placeholder `"0"`, while the spec-modelled checked constructor
rejects the same configuration. -/
theorem C6_counterexample :
    initChecked '[' 0 = none
    ∧ UUIDReplacer.init '[' 0 = UUIDReplacer.mk '[' ']' 0 [] 0
    ∧ clean_prompt "[550e8400-e29b-41d4-a716-446655440000]".toList '[' 0
        = ("[0]".toList,
           [("550e8400-e29b-41d4-a716-446655440000".toList, "0".toList)]) :=
  ⟨rfl, rfl, by decide⟩

/-- C6 amended: construction never fails — `__init__` validates nothing, so
`nr_digits ≤ 0` is accepted silently; the engine stays total for every
configuration and input, and with width 0 `zfill` is a no-op, so
placeholders degrade to plain unpadded decimal numerals. -/
theorem C6_no_construction_check (sep : Char) (s : List Char) :
    UUIDReplacer.init sep 0
      = UUIDReplacer.mk sep (closeSepFor sep) 0 [] 0
    ∧ zfill s 0 = s
    ∧ (∀ n : Nat,
        (UUIDReplacer.mk sep (closeSepFor sep) 0 [] n).generate_replacement.1
          = natDigits n) := by
  refine ⟨rfl, ?_, ?_⟩
  · simp [zfill]
  · intro n
    simp [UUIDReplacer.generate_replacement, zfill]

/-- C8: pattern matching is case-insensitive over the hex digits, but
identifier equality is exact-string: two delimited UUID-shaped spellings
that differ only in case are both substituted, stored under two distinct
mapping keys, and assigned two distinct placeholders. -/
theorem C8_case_sensitivity (sep : Char) (w : Nat) (u1 u2 : List Char)
    (h1 : uuidShape u1 = true) (h2 : uuidShape u2 = true) (hne : u1 ≠ u2) :
    clean_prompt (sep :: (u1 ++ closeSepFor sep :: sep :: (u2 ++ [closeSepFor sep])))
        sep w
      = (sep :: (zfill (natDigits 0) w ++ closeSepFor sep :: sep ::
            (zfill (natDigits 1) w ++ [closeSepFor sep])),
         [(u1, zfill (natDigits 0) w), (u2, zfill (natDigits 1) w)])
    ∧ zfill (natDigits 0) w ≠ zfill (natDigits 1) w := by
  refine ⟨?_, fun heq => by have := zfill_natDigits_inj heq; omega⟩
  have hL : (sep :: (u1 ++ closeSepFor sep :: sep :: (u2 ++ [closeSepFor sep]))).length
      = 76 := by
    simp [uuidShape_length h1, uuidShape_length h2]
  simp only [clean_prompt, UUIDReplacer.replace_uuids]
  rw [hL]
  have hm1 : matchSpanAt (UUIDReplacer.init sep w).sep
      (UUIDReplacer.init sep w).close_sep
      (sep :: (u1 ++ closeSepFor sep :: sep :: (u2 ++ [closeSepFor sep])))
        = some (u1, sep :: (u2 ++ [closeSepFor sep])) := by
    show matchSpanAt sep (closeSepFor sep) _ = _
    exact matchSpanAt_exact sep (closeSepFor sep) _ h1
  have hl1 : lookupA u1 (UUIDReplacer.init sep w).uuid_mapping = none := rfl
  rw [show (76 : Nat) = 75 + 1 from rfl,
    replaceScanF_fresh 75 hm1 (uuidShape_valid h1) hl1]
  have hm2 : matchSpanAt (insertFresh (UUIDReplacer.init sep w) u1).sep
      (insertFresh (UUIDReplacer.init sep w) u1).close_sep
      (sep :: (u2 ++ [closeSepFor sep])) = some (u2, []) := by
    show matchSpanAt sep (closeSepFor sep) _ = _
    exact matchSpanAt_exact sep (closeSepFor sep) [] h2
  have hl2 : lookupA u2 (insertFresh (UUIDReplacer.init sep w) u1).uuid_mapping
      = none := by
    show lookupA u2 ([] ++ [(u1, zfill (natDigits 0) w)]) = none
    simp [lookupA, hne]
  rw [show (75 : Nat) = 74 + 1 from rfl,
    replaceScanF_fresh 74 hm2 (uuidShape_valid h2) hl2]
  rw [replaceScanF_nil]
  exact rfl

/-- C8 witness: the same UUID value spelled in lower case and in upper case,
both delimited: both spellings are substituted, as two keys with the two
distinct placeholders `"00"` and `"01"`. -/
theorem C8_case_sensitivity_witness :
    clean_prompt
        ('[' :: ("550e8400-e29b-41d4-a716-446655440000".toList
          ++ closeSepFor '[' :: '[' ::
            ("550E8400-E29B-41D4-A716-446655440000".toList ++ [closeSepFor '['])))
        '[' 2
      = ('[' :: (zfill (natDigits 0) 2 ++ closeSepFor '[' :: '[' ::
            (zfill (natDigits 1) 2 ++ [closeSepFor '['])),
         [("550e8400-e29b-41d4-a716-446655440000".toList, zfill (natDigits 0) 2),
          ("550E8400-E29B-41D4-A716-446655440000".toList, zfill (natDigits 1) 2)])
    ∧ zfill (natDigits 0) 2 ≠ zfill (natDigits 1) 2 :=
  C8_case_sensitivity '[' 2
    "550e8400-e29b-41d4-a716-446655440000".toList
    "550E8400-E29B-41D4-A716-446655440000".toList
    (by decide) (by decide) (by decide)

theorem stringContents_append (a b : List Message) :
    stringContents (a ++ b) = stringContents a ++ stringContents b := by
  simp [stringContents]

/-- C7: the batch operation returns one record per input record in the same
order; in each record only a string-typed `'content'` value is transformed —
an absent `'content'`, a non-string `'content'`, and all other fields pass
through unchanged; all records share one replacer threaded in input order,
so the `i`-th string content is replaced from the state accumulated over the
earlier records (an identifier already seen keeps its earlier placeholder);
and the returned mapping is the cumulative mapping of that shared replacer —
the union of the whole batch's substitutions, into which every binding made
while processing any prefix persists. -/
theorem C7_batch (msgs : List Message) (sep : Char) (w : Nat) :
    (process_messages msgs sep w).1.length = msgs.length
    ∧ (∀ i : Nat, i < msgs.length →
        ((process_messages msgs sep w).1.getD i default).rest
            = (msgs.getD i default).rest
        ∧ ((msgs.getD i default).content = none →
            ((process_messages msgs sep w).1.getD i default).content = none)
        ∧ (∀ v : PyVal, (∀ s : List Char, v ≠ PyVal.str s) →
            (msgs.getD i default).content = some v →
            ((process_messages msgs sep w).1.getD i default).content = some v)
        ∧ (∀ s : List Char, (msgs.getD i default).content = some (PyVal.str s) →
            ((process_messages msgs sep w).1.getD i default).content
              = some (PyVal.str
                  ((replaceAll (UUIDReplacer.init sep w)
                      (stringContents (msgs.take i))).replace_uuids s).1.1)))
    ∧ (process_messages msgs sep w).2
        = (replaceAll (UUIDReplacer.init sep w) (stringContents msgs)).uuid_mapping
    ∧ (∀ i : Nat, ∀ k v : List Char,
        lookupA k ((replaceAll (UUIDReplacer.init sep w)
            (stringContents (msgs.take i))).uuid_mapping) = some v →
        lookupA k (process_messages msgs sep w).2 = some v) := by
  have hthread := processLoop_thread msgs (UUIDReplacer.init sep w) []
  have hallm : (process_messages msgs sep w).2
      = (replaceAll (UUIDReplacer.init sep w) (stringContents msgs)).uuid_mapping := by
    have h0 := processLoop_allm msgs (UUIDReplacer.init sep w) (mappingInv_init sep w)
    show (processLoop (UUIDReplacer.init sep w) [] msgs).2.1 = _
    have h1 : (processLoop (UUIDReplacer.init sep w) [] msgs).2.1
        = (processLoop (UUIDReplacer.init sep w) [] msgs).2.2.uuid_mapping := h0
    rw [h1, hthread.1]
  refine ⟨hthread.2, ?_, hallm, ?_⟩
  · intro i hi
    exact processLoop_frame msgs (UUIDReplacer.init sep w) [] i hi
  · intro i k v hl
    rw [hallm]
    have hsplit : replaceAll (UUIDReplacer.init sep w) (stringContents msgs)
        = replaceAll
            (replaceAll (UUIDReplacer.init sep w) (stringContents (msgs.take i)))
            (stringContents (msgs.drop i)) := by
      conv_lhs => rw [← List.take_append_drop i msgs]
      rw [stringContents_append, replaceAll_append]
    obtain ⟨ext, hext⟩ := replaceAll_extends (stringContents (msgs.drop i))
      (replaceAll (UUIDReplacer.init sep w) (stringContents (msgs.take i)))
    rw [hsplit, hext]
    exact lookupA_append_some ext hl

/-- C7 witness: a batch of three records — a string content holding an
identifier, a non-string content, and a later string content repeating the
same identifier.  The third record's output reuses the placeholder `"00"`
assigned in the first record, and the returned mapping is the shared
replacer's final mapping. -/
theorem C7_batch_witness :
    ((process_messages
        [Message.mk (some (PyVal.str "[550e8400-e29b-41d4-a716-446655440000]".toList))
            [("role".toList, PyVal.str "user".toList)],
         Message.mk (some (PyVal.other 7)) [],
         Message.mk (some (PyVal.str "x [550e8400-e29b-41d4-a716-446655440000]".toList)) []]
        '[' 2).1.getD 2 default).content
      = some (PyVal.str
          ((replaceAll (UUIDReplacer.init '[' 2)
              (stringContents
                ([Message.mk (some (PyVal.str "[550e8400-e29b-41d4-a716-446655440000]".toList))
                    [("role".toList, PyVal.str "user".toList)],
                  Message.mk (some (PyVal.other 7)) [],
                  Message.mk (some (PyVal.str "x [550e8400-e29b-41d4-a716-446655440000]".toList)) []].take 2))).replace_uuids
            "x [550e8400-e29b-41d4-a716-446655440000]".toList).1.1)
    ∧ ((process_messages
        [Message.mk (some (PyVal.str "[550e8400-e29b-41d4-a716-446655440000]".toList))
            [("role".toList, PyVal.str "user".toList)],
         Message.mk (some (PyVal.other 7)) [],
         Message.mk (some (PyVal.str "x [550e8400-e29b-41d4-a716-446655440000]".toList)) []]
        '[' 2).1.getD 2 default).content
      = some (PyVal.str "x [00]".toList) :=
  ⟨((C7_batch
      [Message.mk (some (PyVal.str "[550e8400-e29b-41d4-a716-446655440000]".toList))
          [("role".toList, PyVal.str "user".toList)],
       Message.mk (some (PyVal.other 7)) [],
       Message.mk (some (PyVal.str "x [550e8400-e29b-41d4-a716-446655440000]".toList)) []]
      '[' 2).2.1 2 (by decide)).2.2.2
    "x [550e8400-e29b-41d4-a716-446655440000]".toList (by decide),
   by decide⟩

/-- C10: the batch operation does not mutate its input: in the object-store
model of mutable message dicts, every cell of the original heap still holds
exactly its original record after `process_messages_heap` returns — each
iteration copies the current record into a freshly allocated cell and
mutates only that copy. -/
theorem C10_no_input_mutation (h : Heap) (refs : List Nat) (sep : Char)
    (w : Nat) (i : Nat) (hi : i < h.objs.length) :
    (process_messages_heap h refs sep w).1.objs.getD i default
      = h.objs.getD i default :=
  processLoopHeap_frame refs (UUIDReplacer.init sep w) [] h i hi

/-- C10 witness: a two-record heap processed in full — both original cells
are unchanged afterwards, while the corresponding output cell holds the
transformed copy. -/
theorem C10_no_input_mutation_witness :
    (process_messages_heap
        (Heap.mk
          [Message.mk (some (PyVal.str "[550e8400-e29b-41d4-a716-446655440000]".toList)) [],
           Message.mk none []])
        [0, 1] '[' 2).1.objs.getD 0 default
      = (Heap.mk
          [Message.mk (some (PyVal.str "[550e8400-e29b-41d4-a716-446655440000]".toList)) [],
           Message.mk none []]).objs.getD 0 default
    ∧ ((process_messages_heap
        (Heap.mk
          [Message.mk (some (PyVal.str "[550e8400-e29b-41d4-a716-446655440000]".toList)) [],
           Message.mk none []])
        [0, 1] '[' 2).1.objs.getD 2 default).content
      = some (PyVal.str "[00]".toList) :=
  ⟨C10_no_input_mutation
      (Heap.mk
        [Message.mk (some (PyVal.str "[550e8400-e29b-41d4-a716-446655440000]".toList)) [],
         Message.mk none []])
      [0, 1] '[' 2 0 (by decide),
   by decide⟩

end PromptCleaner
